import Mathlib

/-!
Verification of the Minesweeper AI knowledge base (src/minesweeper.py).

Shallow embedding conventions:
* a Python cell tuple is a pair of integers;
* Python sets of cells become Finsets; Python ints become ℤ;
* the Sentence class and the MinesweeperAI class become structures, and each
  mutating method becomes a function returning the updated value;
* iterating a Python set snapshot with mark_mine / mark_safe is order
  independent (each call removes exactly the marked cell from every sentence),
  so it is embedded as the batch operations markMines / markSafes; the lemmas
  markMines_eq_foldl / markSafes_eq_foldl prove the batch operation equal to
  folding the single-cell source operation over any enumeration of the set;
* the unbounded while-inferred loop of add_knowledge is embedded with an
  explicit fuel parameter returning an Option; running out of fuel gives none.
  Termination (claim C4) is the statement that some fuel suffices.
-/

set_option maxHeartbeats 1000000

/-- Board cells are integer coordinate pairs, mirroring the Python tuples. -/
abbrev Cell : Type := ℤ × ℤ

/-- Logical statement about a Minesweeper game: a set of board cells and a
count of the number of those cells which are mines (class Sentence). -/
structure Sentence where
  cells : Finset Cell
  count : ℤ
deriving DecidableEq

namespace Sentence

/-- Source known_mines: the cells, if all of them must be mines, else empty. -/
def known_mines (s : Sentence) : Finset Cell :=
  if (s.cells.card : ℤ) = s.count then s.cells else ∅

/-- Source known_safes: the cells, if none of them can be a mine, else empty. -/
def known_safes (s : Sentence) : Finset Cell :=
  if s.count = 0 then s.cells else ∅

/-- Source Sentence.mark_mine: remove the cell and decrement the count when
the cell is present, otherwise change nothing. -/
def mark_mine (s : Sentence) (cell : Cell) : Sentence :=
  if cell ∈ s.cells then { cells := s.cells.erase cell, count := s.count - 1 }
  else s

/-- Source Sentence.mark_safe: remove the cell when present, count unchanged. -/
def mark_safe (s : Sentence) (cell : Cell) : Sentence :=
  if cell ∈ s.cells then { cells := s.cells.erase cell, count := s.count }
  else s

end Sentence

/-- The AI state (class MinesweeperAI): board dimensions, the cells already
played, the cells known to be mines or safe, and the list of sentences. -/
structure MinesweeperAI where
  height : ℤ
  width : ℤ
  moves_made : Finset Cell
  mines : Finset Cell
  safes : Finset Cell
  knowledge : List Sentence
deriving DecidableEq

namespace MinesweeperAI

/-- Fresh instance as built by MinesweeperAI.__init__. -/
def init (height width : ℤ) : MinesweeperAI :=
  { height := height, width := width, moves_made := ∅, mines := ∅, safes := ∅,
    knowledge := [] }

/-- Source MinesweeperAI.mark_mine: record the mine and update every sentence
(the inline loop over a copy of each cell set removes the cell and decrements
the count exactly when the cell is present, which is Sentence.mark_mine). -/
def mark_mine (st : MinesweeperAI) (cell : Cell) : MinesweeperAI :=
  { st with mines := insert cell st.mines,
            knowledge := st.knowledge.map fun s => s.mark_mine cell }

/-- Source MinesweeperAI.mark_safe: record the safe cell and update every
sentence, without touching any count. -/
def mark_safe (st : MinesweeperAI) (cell : Cell) : MinesweeperAI :=
  { st with safes := insert cell st.safes,
            knowledge := st.knowledge.map fun s => s.mark_safe cell }

/-- Batch form of repeatedly calling mark_mine on every cell of a set; the
iteration order of the Python set is irrelevant (markMines_eq_foldl). -/
def markMines (st : MinesweeperAI) (S : Finset Cell) : MinesweeperAI :=
  { st with mines := st.mines ∪ S,
            knowledge := st.knowledge.map fun s =>
              { cells := s.cells \ S, count := s.count - ((s.cells ∩ S).card : ℤ) } }

/-- Batch form of repeatedly calling mark_safe on every cell of a set. -/
def markSafes (st : MinesweeperAI) (S : Finset Cell) : MinesweeperAI :=
  { st with safes := st.safes ∪ S,
            knowledge := st.knowledge.map fun s =>
              { cells := s.cells \ S, count := s.count } }

end MinesweeperAI

/-- In-bounds neighbors of a cell: all cells within one row and one column,
excluding the cell itself, clipped to the board (the nested range loops with
the bounds test in add_knowledge). -/
def inBoundsNeighbors (height width : ℤ) (cell : Cell) : Finset Cell :=
  ((Finset.Icc (cell.1 - 1) (cell.1 + 1)) ×ˢ (Finset.Icc (cell.2 - 1) (cell.2 + 1))).filter
    fun n => n ≠ cell ∧ 0 ≤ n.1 ∧ n.1 < height ∧ 0 ≤ n.2 ∧ n.2 < width

namespace MinesweeperAI

/-- Steps 1 to 3 of add_knowledge: record the move, mark the cell safe,
decrement the count once for every in-bounds neighbor already known to be a
mine, collect the undetermined neighbors, and append the new sentence exactly
when that set is nonempty. -/
def addObservationCore (st : MinesweeperAI) (cell : Cell) (count : ℤ) :
    MinesweeperAI :=
  let st1 := { st with moves_made := insert cell st.moves_made }
  let st2 := st1.mark_safe cell
  let nbrs := inBoundsNeighbors st2.height st2.width cell
  let adjusted := count - ((nbrs.filter fun n => n ∈ st2.mines).card : ℤ)
  let suspects := nbrs.filter fun n => n ∉ st2.mines ∧ n ∉ st2.safes
  if suspects.Nonempty then
    { st2 with knowledge := st2.knowledge ++ [{ cells := suspects, count := adjusted }] }
  else st2

/-- One step of the resolution pass ranging over the sentence at position k:
if all its cells must be mines mark them all, then, on the updated state, if
its count is zero mark all its cells safe.  The returned flag records whether
any cell was marked (the inferred flag assignments in the source loop bodies). -/
def resolveStep (st : MinesweeperAI) (k : ℕ) : MinesweeperAI × Bool :=
  let s := st.knowledge.getD k { cells := ∅, count := 0 }
  let p1 : MinesweeperAI × Bool :=
    if (s.cells.card : ℤ) = s.count then (st.markMines s.cells, decide s.cells.Nonempty)
    else (st, false)
  let s1 := p1.1.knowledge.getD k { cells := ∅, count := 0 }
  if s1.count = 0 then (p1.1.markSafes s1.cells, p1.2 || decide s1.cells.Nonempty)
  else p1

/-- The full resolution pass: visit every position of the knowledge list in
order (marking mutates the sentences in place but never changes the length of
the list, so the Python for loop visits exactly these positions). -/
def resolutionPass (st : MinesweeperAI) : MinesweeperAI × Bool :=
  (List.range st.knowledge.length).foldl
    (fun p k => let q := p.1.resolveStep k; (q.1, p.2 || q.2)) (st, false)

/-- Processing of one ordered pair (sentence, other) = (position i, position j)
in the subset-inference pass: skip structurally equal pairs, and otherwise,
when sentence.cells is a nonempty subset of other.cells and sentence.count is
positive, append the derived sentence unless it is already present.  The flag
records whether an append happened. -/
def subsetPairStep (st : MinesweeperAI) (i j : ℕ) : MinesweeperAI × Bool :=
  let sentence := st.knowledge.getD i { cells := ∅, count := 0 }
  let other := st.knowledge.getD j { cells := ∅, count := 0 }
  if other = sentence then (st, false)
  else if sentence.cells ⊆ other.cells ∧ sentence.cells ≠ ∅ ∧ 0 < sentence.count then
    let new_sentence : Sentence :=
      { cells := other.cells \ sentence.cells, count := other.count - sentence.count }
    if new_sentence ∉ st.knowledge then
      ({ st with knowledge := st.knowledge ++ [new_sentence] }, true)
    else (st, false)
  else (st, false)

/-- Inner loop of the subset-inference pass: the index j runs over the
knowledge list, which can grow while it is being iterated (a Python for loop
over a list visits elements appended during the iteration).  Fuel bounds the
number of iterations; none means the fuel ran out. -/
def subsetInnerLoop : ℕ → MinesweeperAI → ℕ → ℕ → Bool → Option (MinesweeperAI × Bool)
  | 0, st, _, j, flag =>
      if j < st.knowledge.length then none else some (st, flag)
  | fuel + 1, st, i, j, flag =>
      if j < st.knowledge.length then
        let p := st.subsetPairStep i j
        subsetInnerLoop fuel p.1 i (j + 1) (flag || p.2)
      else some (st, flag)

/-- Outer loop of the subset-inference pass over the index i. -/
def subsetOuterLoop : ℕ → MinesweeperAI → ℕ → Bool → Option (MinesweeperAI × Bool)
  | 0, st, i, flag =>
      if i < st.knowledge.length then none else some (st, flag)
  | fuel + 1, st, i, flag =>
      if i < st.knowledge.length then
        match subsetInnerLoop fuel st i 0 false with
        | none => none
        | some (st1, flag1) => subsetOuterLoop fuel st1 (i + 1) (flag || flag1)
      else some (st, flag)

/-- The while-inferred loop of add_knowledge: run the resolution pass and the
subset-inference pass, and repeat while either of them reported progress. -/
def inferLoop : ℕ → MinesweeperAI → Option MinesweeperAI
  | 0, _ => none
  | fuel + 1, st =>
      let p := st.resolutionPass
      match subsetOuterLoop fuel p.1 0 false with
      | none => none
      | some (st2, flag2) =>
          if p.2 || flag2 then inferLoop fuel st2 else some st2

/-- Source add_knowledge: steps 1 to 3 followed by the inference loop. -/
def add_knowledge (fuel : ℕ) (st : MinesweeperAI) (cell : Cell) (count : ℤ) :
    Option MinesweeperAI :=
  inferLoop fuel (st.addObservationCore cell count)

end MinesweeperAI

/-- A concrete linear-order relation on cells standing in for the unspecified
iteration order of a Python set in make_safe_move. -/
def cellLe (a b : Cell) : Prop :=
  a.1 < b.1 ∨ (a.1 = b.1 ∧ a.2 ≤ b.2)

instance : DecidableRel cellLe := fun a b =>
  inferInstanceAs (Decidable (a.1 < b.1 ∨ (a.1 = b.1 ∧ a.2 ≤ b.2)))

/-- Least element of two optional cells in the order cellLe. -/
def minCell : Option Cell → Option Cell → Option Cell
  | none, b => b
  | some a, none => some a
  | some a, some b => if cellLe a b then some a else some b

instance : Std.Commutative minCell := ⟨by
  intro a b
  rcases a with _ | a <;> rcases b with _ | b <;> simp only [minCell]
  unfold cellLe
  split_ifs <;> simp only [Option.some.injEq] <;>
    first
    | rfl
    | (apply Prod.ext <;> omega)⟩

instance : Std.Associative minCell := ⟨by
  intro a b c
  have hnr : ∀ x : Option Cell, minCell x none = x := fun x => by cases x <;> rfl
  rcases a with _ | a
  · rfl
  rcases b with _ | b
  · rfl
  rcases c with _ | c
  · rw [hnr, hnr]
  by_cases h1 : cellLe a b <;> by_cases h2 : cellLe b c <;> by_cases h3 : cellLe a c <;>
    simp only [minCell, h1, h2, h3, if_true, if_false, ite_true, ite_false,
      if_pos, if_neg, not_false_iff] <;>
    unfold cellLe at * <;>
    first
    | rfl
    | (exfalso; omega)
    | (simp only [Option.some.injEq]; exact Prod.ext (by omega) (by omega))⟩

namespace MinesweeperAI

/-- Source make_safe_move: return a cell from safes that is neither a known
mine nor an already made move, or none when no such cell exists.  The Python
loop returns the first such element in the unspecified set-iteration order;
the embedding returns the least one in the concrete order cellLe. -/
def make_safe_move (st : MinesweeperAI) : Option Cell :=
  (st.safes.filter fun c => c ∉ st.mines ∧ c ∉ st.moves_made).fold minCell none some

end MinesweeperAI

/-- The set of cells of the height by width board. -/
def board (height width : ℤ) : Finset Cell :=
  (Finset.Icc (0:ℤ) (height - 1)) ×ˢ (Finset.Icc (0:ℤ) (width - 1))

/-- States reachable from a fresh instance by add_knowledge calls whose cell
arguments are in bounds; the fuel witnesses that the call returned. -/
inductive ReachesIB (height width : ℤ) : MinesweeperAI → Prop where
  | init : ReachesIB height width (MinesweeperAI.init height width)
  | step (st st' : MinesweeperAI) (cell : Cell) (count : ℤ) (fuel : ℕ) :
      ReachesIB height width st →
      0 ≤ cell.1 → cell.1 < height → 0 ≤ cell.2 → cell.2 < width →
      MinesweeperAI.add_knowledge fuel st cell count = some st' →
      ReachesIB height width st'

/-- States reachable from a fresh instance by add_knowledge calls whose inputs
are consistent with the single ground-truth mine layout M: the observed cell is
not a mine, the reported count is the exact number of mines among the cell's
in-bounds neighbors, and no cell is ever re-observed. -/
inductive ReachesConsistent (height width : ℤ) (M : Finset Cell) :
    MinesweeperAI → Prop where
  | init : ReachesConsistent height width M (MinesweeperAI.init height width)
  | step (st st' : MinesweeperAI) (cell : Cell) (fuel : ℕ) :
      ReachesConsistent height width M st →
      cell ∉ M →
      cell ∉ st.moves_made →
      MinesweeperAI.add_knowledge fuel st cell
        (((inBoundsNeighbors height width cell) ∩ M).card : ℤ) = some st' →
      ReachesConsistent height width M st'

/-- Ground-truth invariant tying a state to the mine layout M: the board
dimensions are the fixed ones, every known mine is a mine of M, no known safe
cell is a mine of M, and every sentence counts exactly its cells lying in M. -/
def ConsistentInv (height width : ℤ) (M : Finset Cell) (st : MinesweeperAI) : Prop :=
  st.height = height ∧ st.width = width ∧
  st.mines ⊆ M ∧ (∀ c ∈ st.safes, c ∉ M) ∧
  ∀ s ∈ st.knowledge, s.count = ((s.cells ∩ M).card : ℤ)

/-- Every sentence's cell set stays inside the given set of cells. -/
def CellsWithin (B : Finset Cell) (st : MinesweeperAI) : Prop :=
  ∀ s ∈ st.knowledge, s.cells ⊆ B

/-- Board-bounds invariant for C9. -/
def BoundsInv (height width : ℤ) (st : MinesweeperAI) : Prop :=
  st.height = height ∧ st.width = width ∧ CellsWithin (board height width) st

/-- No sentence mentions a cell already recorded as a mine or as safe. -/
def NoKnownCells (st : MinesweeperAI) : Prop :=
  ∀ s ∈ st.knowledge, ∀ c ∈ s.cells, c ∉ st.mines ∧ c ∉ st.safes

/-- Count bounds used in the termination argument: every count is at most M0,
and at least C0 plus a slope depending on the number of cells left. -/
def CountsBound (C0 M0 : ℤ) (st : MinesweeperAI) : Prop :=
  ∀ s ∈ st.knowledge, s.count ≤ M0 ∧ C0 + (max M0 1) * (s.cells.card : ℤ) ≤ s.count

/-- All sentences over subsets of B whose count lies between C0 and M0. -/
def sentenceUniverse (B : Finset Cell) (C0 M0 : ℤ) : Finset Sentence :=
  (B.powerset ×ˢ Finset.Icc C0 M0).image fun p => { cells := p.1, count := p.2 }

/-- Number of cells of B not yet recorded as mines or safes. -/
def unmarkedCount (B : Finset Cell) (st : MinesweeperAI) : ℕ :=
  (B \ (st.mines ∪ st.safes)).card

/-- Number of sentence values of the universe not yet present in knowledge. -/
def noveltyCount (B : Finset Cell) (C0 M0 : ℤ) (st : MinesweeperAI) : ℕ :=
  (sentenceUniverse B C0 M0).card - st.knowledge.toFinset.card

/-- Union of the cell sets of all sentences of a list. -/
def unionCells (l : List Sentence) : Finset Cell :=
  l.foldr (fun s acc => s.cells ∪ acc) ∅

/-- Invariant bundle for the termination argument: no sentence mentions a
known cell, all cells stay inside B, and all counts are bounded. -/
def TermInv (B : Finset Cell) (C0 M0 : ℤ) (st : MinesweeperAI) : Prop :=
  NoKnownCells st ∧ CellsWithin B st ∧ CountsBound C0 M0 st

/-- Start state of the concrete subset-inference scenario of C3: the two
constraints of the spec over a 3 by 3 board. -/
def c3Start : MinesweeperAI :=
  { height := 3, width := 3, moves_made := ∅, mines := ∅, safes := ∅,
    knowledge :=
      [ { cells := {((0:ℤ),(0:ℤ)), (0,1), (0,2)}, count := 1 },
        { cells := {((0:ℤ),(0:ℤ)), (0,1), (0,2), (1,0), (1,1)}, count := 2 } ] }

/-- Fixed point of the inference loop on c3Start: both constraints plus the
derived one. -/
def c3Final : MinesweeperAI :=
  { height := 3, width := 3, moves_made := ∅, mines := ∅, safes := ∅,
    knowledge :=
      [ { cells := {((0:ℤ),(0:ℤ)), (0,1), (0,2)}, count := 1 },
        { cells := {((0:ℤ),(0:ℤ)), (0,1), (0,2), (1,0), (1,1)}, count := 2 },
        { cells := {((1:ℤ),(0:ℤ)), (1,1)}, count := 1 } ] }

/-- State reached after observing (0,0) with count 1 on a fresh 2 by 2 board
whose only mine is at (1,1); used as a concrete reachable state. -/
def c12Observed : MinesweeperAI :=
  { height := 2, width := 2, moves_made := {((0:ℤ),(0:ℤ))}, mines := ∅,
    safes := {((0:ℤ),(0:ℤ))},
    knowledge := [ { cells := {((0:ℤ),(1:ℤ)), (1,0), (1,1)}, count := 1 } ] }

/-- A tiny state with one known safe unplayed cell, for make_safe_move. -/
def safeMoveState : MinesweeperAI :=
  { height := 1, width := 1, moves_made := ∅, mines := ∅,
    safes := {((0:ℤ),(0:ℤ))}, knowledge := [] }

/-! Basic structural lemmas about the embedded operations. -/

namespace MinesweeperAI

theorem ext_state {st st' : MinesweeperAI} (hh : st.height = st'.height)
    (hw : st.width = st'.width) (hmm : st.moves_made = st'.moves_made)
    (hmi : st.mines = st'.mines) (hsa : st.safes = st'.safes)
    (hk : st.knowledge = st'.knowledge) : st = st' := by
  cases st; cases st'; simp_all

@[simp] theorem markMines_height (st : MinesweeperAI) (S : Finset Cell) :
    (st.markMines S).height = st.height := rfl

@[simp] theorem markMines_width (st : MinesweeperAI) (S : Finset Cell) :
    (st.markMines S).width = st.width := rfl

@[simp] theorem markMines_moves (st : MinesweeperAI) (S : Finset Cell) :
    (st.markMines S).moves_made = st.moves_made := rfl

@[simp] theorem markMines_mines (st : MinesweeperAI) (S : Finset Cell) :
    (st.markMines S).mines = st.mines ∪ S := rfl

@[simp] theorem markMines_safes (st : MinesweeperAI) (S : Finset Cell) :
    (st.markMines S).safes = st.safes := rfl

@[simp] theorem markMines_knowledge (st : MinesweeperAI) (S : Finset Cell) :
    (st.markMines S).knowledge = st.knowledge.map fun s =>
      { cells := s.cells \ S, count := s.count - ((s.cells ∩ S).card : ℤ) } := rfl

@[simp] theorem markSafes_height (st : MinesweeperAI) (S : Finset Cell) :
    (st.markSafes S).height = st.height := rfl

@[simp] theorem markSafes_width (st : MinesweeperAI) (S : Finset Cell) :
    (st.markSafes S).width = st.width := rfl

@[simp] theorem markSafes_moves (st : MinesweeperAI) (S : Finset Cell) :
    (st.markSafes S).moves_made = st.moves_made := rfl

@[simp] theorem markSafes_mines (st : MinesweeperAI) (S : Finset Cell) :
    (st.markSafes S).mines = st.mines := rfl

@[simp] theorem markSafes_safes (st : MinesweeperAI) (S : Finset Cell) :
    (st.markSafes S).safes = st.safes ∪ S := rfl

@[simp] theorem markSafes_knowledge (st : MinesweeperAI) (S : Finset Cell) :
    (st.markSafes S).knowledge = st.knowledge.map fun s =>
      { cells := s.cells \ S, count := s.count } := rfl

theorem markMines_empty (st : MinesweeperAI) : st.markMines ∅ = st := by
  apply ext_state <;> simp [markMines]

theorem markSafes_empty (st : MinesweeperAI) : st.markSafes ∅ = st := by
  apply ext_state <;> simp [markSafes]

@[simp] theorem markMines_length (st : MinesweeperAI) (S : Finset Cell) :
    (st.markMines S).knowledge.length = st.knowledge.length := by simp

@[simp] theorem markSafes_length (st : MinesweeperAI) (S : Finset Cell) :
    (st.markSafes S).knowledge.length = st.knowledge.length := by simp

@[simp] theorem mark_mine_height (st : MinesweeperAI) (c : Cell) :
    (st.mark_mine c).height = st.height := rfl

@[simp] theorem mark_mine_width (st : MinesweeperAI) (c : Cell) :
    (st.mark_mine c).width = st.width := rfl

@[simp] theorem mark_mine_moves (st : MinesweeperAI) (c : Cell) :
    (st.mark_mine c).moves_made = st.moves_made := rfl

@[simp] theorem mark_mine_mines (st : MinesweeperAI) (c : Cell) :
    (st.mark_mine c).mines = insert c st.mines := rfl

@[simp] theorem mark_mine_safes (st : MinesweeperAI) (c : Cell) :
    (st.mark_mine c).safes = st.safes := rfl

@[simp] theorem mark_mine_knowledge (st : MinesweeperAI) (c : Cell) :
    (st.mark_mine c).knowledge = st.knowledge.map fun s => s.mark_mine c := rfl

@[simp] theorem mark_safe_height (st : MinesweeperAI) (c : Cell) :
    (st.mark_safe c).height = st.height := rfl

@[simp] theorem mark_safe_width (st : MinesweeperAI) (c : Cell) :
    (st.mark_safe c).width = st.width := rfl

@[simp] theorem mark_safe_moves (st : MinesweeperAI) (c : Cell) :
    (st.mark_safe c).moves_made = st.moves_made := rfl

@[simp] theorem mark_safe_mines (st : MinesweeperAI) (c : Cell) :
    (st.mark_safe c).mines = st.mines := rfl

@[simp] theorem mark_safe_safes (st : MinesweeperAI) (c : Cell) :
    (st.mark_safe c).safes = insert c st.safes := rfl

@[simp] theorem mark_safe_knowledge (st : MinesweeperAI) (c : Cell) :
    (st.mark_safe c).knowledge = st.knowledge.map fun s => s.mark_safe c := rfl

/-- Marking a single mine through the batch operation agrees with the
single-cell source operation. -/
theorem markMines_singleton (st : MinesweeperAI) (c : Cell) :
    st.markMines {c} = st.mark_mine c := by
  apply ext_state
  · rfl
  · rfl
  · rfl
  · rw [markMines_mines, mark_mine_mines, Finset.insert_eq, Finset.union_comm]
  · rfl
  · rw [markMines_knowledge, mark_mine_knowledge]
    apply List.map_congr_left
    intro s _
    by_cases h : c ∈ s.cells
    · simp [Sentence.mark_mine, h, Finset.sdiff_singleton_eq_erase,
        Finset.inter_singleton_of_mem h]
    · simp [Sentence.mark_mine, h, Finset.sdiff_singleton_eq_erase,
        Finset.inter_singleton_of_not_mem h, Finset.erase_eq_of_not_mem h]

/-- Marking a single safe cell through the batch operation agrees with the
single-cell source operation. -/
theorem markSafes_singleton (st : MinesweeperAI) (c : Cell) :
    st.markSafes {c} = st.mark_safe c := by
  apply ext_state
  · rfl
  · rfl
  · rfl
  · rfl
  · rw [markSafes_safes, mark_safe_safes, Finset.insert_eq, Finset.union_comm]
  · rw [markSafes_knowledge, mark_safe_knowledge]
    apply List.map_congr_left
    intro s _
    by_cases h : c ∈ s.cells
    · simp [Sentence.mark_safe, h, Finset.sdiff_singleton_eq_erase]
    · simp [Sentence.mark_safe, h, Finset.sdiff_singleton_eq_erase,
        Finset.erase_eq_of_not_mem h]

theorem mark_mine_markMines (st : MinesweeperAI) (c : Cell) (S : Finset Cell)
    (hc : c ∉ S) : (st.mark_mine c).markMines S = st.markMines (insert c S) := by
  apply ext_state
  · rfl
  · rfl
  · rfl
  · rw [markMines_mines, mark_mine_mines, markMines_mines]
    ext x; simp [Finset.mem_insert]
  · rfl
  · rw [markMines_knowledge, mark_mine_knowledge, markMines_knowledge, List.map_map]
    apply List.map_congr_left
    intro s _
    by_cases h : c ∈ s.cells
    · have h1 : (s.cells.erase c) ∩ S = s.cells ∩ S := by
        ext x; simp only [Finset.mem_inter, Finset.mem_erase]
        constructor
        · rintro ⟨⟨_, hx⟩, hxS⟩; exact ⟨hx, hxS⟩
        · rintro ⟨hx, hxS⟩
          exact ⟨⟨fun he => hc (he ▸ hxS), hx⟩, hxS⟩
      have h2 : s.cells ∩ insert c S = insert c (s.cells ∩ S) := by
        ext x; simp only [Finset.mem_inter, Finset.mem_insert]
        constructor
        · rintro ⟨hx, hx' | hxS⟩
          · exact Or.inl hx'
          · exact Or.inr ⟨hx, hxS⟩
        · rintro (rfl | ⟨hx, hxS⟩)
          · exact ⟨h, Or.inl rfl⟩
          · exact ⟨hx, Or.inr hxS⟩
      have h3 : c ∉ s.cells ∩ S := by simp [hc]
      have h4 : (s.cells.erase c) \ S = s.cells \ insert c S := by
        ext x; simp only [Finset.mem_sdiff, Finset.mem_erase, Finset.mem_insert]
        tauto
      simp only [Function.comp, Sentence.mark_mine, h, if_pos]
      refine Sentence.mk.injEq _ _ _ _ ▸ ⟨h4, ?_⟩
      rw [h1, h2, Finset.card_insert_of_not_mem h3]
      push_cast; ring
    · have h2 : s.cells ∩ insert c S = s.cells ∩ S := by
        ext x; simp only [Finset.mem_inter, Finset.mem_insert]
        constructor
        · rintro ⟨hx, hx' | hxS⟩
          · exact absurd (hx' ▸ hx) h
          · exact ⟨hx, hxS⟩
        · rintro ⟨hx, hxS⟩; exact ⟨hx, Or.inr hxS⟩
      have h4 : s.cells \ S = s.cells \ insert c S := by
        ext x; simp only [Finset.mem_sdiff, Finset.mem_insert]
        constructor
        · rintro ⟨hx, hxS⟩
          exact ⟨hx, fun hi => hi.elim (fun he => h (he ▸ hx)) hxS⟩
        · rintro ⟨hx, hxS⟩; exact ⟨hx, fun hS => hxS (Or.inr hS)⟩
      simp only [Function.comp, Sentence.mark_mine, h, if_neg, not_false_iff]
      rw [h2, h4]

theorem mark_safe_markSafes (st : MinesweeperAI) (c : Cell) (S : Finset Cell) :
    (st.mark_safe c).markSafes S = st.markSafes (insert c S) := by
  apply ext_state
  · rfl
  · rfl
  · rfl
  · rfl
  · rw [markSafes_safes, mark_safe_safes, markSafes_safes]
    ext x; simp [Finset.mem_insert]
  · rw [markSafes_knowledge, mark_safe_knowledge, markSafes_knowledge, List.map_map]
    apply List.map_congr_left
    intro s _
    by_cases h : c ∈ s.cells
    · have h4 : (s.cells.erase c) \ S = s.cells \ insert c S := by
        ext x; simp only [Finset.mem_sdiff, Finset.mem_erase, Finset.mem_insert]
        tauto
      simp only [Function.comp, Sentence.mark_safe, h, if_pos]
      rw [Sentence.mk.injEq]
      exact ⟨h4, rfl⟩
    · have h4 : s.cells \ S = s.cells \ insert c S := by
        ext x; simp only [Finset.mem_sdiff, Finset.mem_insert]
        constructor
        · rintro ⟨hx, hxS⟩
          exact ⟨hx, fun hi => hi.elim (fun he => h (he ▸ hx)) hxS⟩
        · rintro ⟨hx, hxS⟩; exact ⟨hx, fun hS => hxS (Or.inr hS)⟩
      simp only [Function.comp, Sentence.mark_safe, h, if_neg, not_false_iff]
      rw [h4]

/-- Iterating the single-cell source operation mark_mine over any duplicate-free
enumeration of a set is the batch operation: the iteration order of the Python
set does not matter. -/
theorem markMines_eq_foldl (st : MinesweeperAI) :
    ∀ l : List Cell, l.Nodup → l.foldl MinesweeperAI.mark_mine st = st.markMines l.toFinset := by
  intro l
  induction l generalizing st with
  | nil => intro _; simp [markMines_empty]
  | cons c t ih =>
      intro hnd
      have hct : c ∉ t := (List.nodup_cons.mp hnd).1
      have hnd' : t.Nodup := (List.nodup_cons.mp hnd).2
      have hc : c ∉ t.toFinset := by simp [hct]
      calc (c :: t).foldl MinesweeperAI.mark_mine st
          = t.foldl MinesweeperAI.mark_mine (st.mark_mine c) := by simp
        _ = (st.mark_mine c).markMines t.toFinset := ih _ hnd'
        _ = st.markMines (insert c t.toFinset) := mark_mine_markMines st c _ hc
        _ = st.markMines (c :: t).toFinset := by simp

/-- Iterating mark_safe over any duplicate-free enumeration of a set is the
batch operation. -/
theorem markSafes_eq_foldl (st : MinesweeperAI) :
    ∀ l : List Cell, l.Nodup → l.foldl MinesweeperAI.mark_safe st = st.markSafes l.toFinset := by
  intro l
  induction l generalizing st with
  | nil => intro _; simp [markSafes_empty]
  | cons c t ih =>
      intro hnd
      have hnd' : t.Nodup := (List.nodup_cons.mp hnd).2
      calc (c :: t).foldl MinesweeperAI.mark_safe st
          = t.foldl MinesweeperAI.mark_safe (st.mark_safe c) := by simp
        _ = (st.mark_safe c).markSafes t.toFinset := ih _ hnd'
        _ = st.markSafes (insert c t.toFinset) := mark_safe_markSafes st c _
        _ = st.markSafes (c :: t).toFinset := by simp

end MinesweeperAI

/-! Lemmas about the order fold used by make_safe_move. -/

theorem minCell_none_left (x : Option Cell) : minCell none x = x := rfl

theorem minCell_none_right (x : Option Cell) : minCell x none = x := by
  cases x <;> rfl

theorem fold_minCell_ne_none (S : Finset Cell) (hS : S.Nonempty) :
    S.fold minCell none some ≠ none := by
  induction S using Finset.induction_on with
  | empty => exact absurd hS (by simp)
  | @insert a S ha ih =>
      rw [Finset.fold_insert ha]
      cases h : S.fold minCell none some with
      | none => simp [minCell]
      | some b => simp [minCell]; split_ifs <;> simp

theorem fold_minCell_empty : (∅ : Finset Cell).fold minCell none some = none := rfl

theorem fold_minCell_mem (S : Finset Cell) (c : Cell) :
    S.fold minCell none some = some c → c ∈ S := by
  induction S using Finset.induction_on with
  | empty => intro h; exact absurd h (by simp [fold_minCell_empty])
  | @insert a S ha ih =>
      intro h
      rw [Finset.fold_insert ha] at h
      cases hS : S.fold minCell none some with
      | none =>
          rw [hS, minCell_none_right, Option.some.injEq] at h
          simp [h]
      | some b =>
          rw [hS] at h
          simp only [minCell] at h
          split_ifs at h <;> rw [Option.some.injEq] at h
          · simp [h]
          · exact Finset.mem_insert_of_mem (ih (h ▸ hS))

/-! Claim theorems: make_safe_move, the marking operations. -/

theorem safe_filter_eq_sdiff (st : MinesweeperAI) :
    (st.safes.filter fun c => c ∉ st.mines ∧ c ∉ st.moves_made) =
      (st.safes \ st.mines) \ st.moves_made := by
  ext x
  simp only [Finset.mem_filter, Finset.mem_sdiff]
  tauto

/-- C8: make_safe_move returns none exactly when no cell of safes lies outside
mines and moves_made, and any returned cell is a safe cell that is neither a
known mine nor an already made move.  The operation is a pure query: it is a
function of the state and never produces a new state, so safes, mines and
moves_made are untouched by construction. -/
theorem make_safe_move_spec (st : MinesweeperAI) :
    (st.make_safe_move = none ↔ (st.safes \ st.mines) \ st.moves_made = ∅) ∧
    ∀ c : Cell, st.make_safe_move = some c →
      c ∈ st.safes ∧ c ∉ st.mines ∧ c ∉ st.moves_made := by
  constructor
  · constructor
    · intro h
      by_contra hne
      have hnonempty : (st.safes.filter fun c => c ∉ st.mines ∧ c ∉ st.moves_made).Nonempty := by
        rw [safe_filter_eq_sdiff]
        exact Finset.nonempty_iff_ne_empty.mpr hne
      exact fold_minCell_ne_none _ hnonempty h
    · intro h
      have : (st.safes.filter fun c => c ∉ st.mines ∧ c ∉ st.moves_made) = ∅ := by
        rw [safe_filter_eq_sdiff]; exact h
      unfold MinesweeperAI.make_safe_move
      rw [this]
      exact fold_minCell_empty
  · intro c hc
    have hmem : c ∈ st.safes.filter fun c => c ∉ st.mines ∧ c ∉ st.moves_made :=
      fold_minCell_mem _ c hc
    simpa using Finset.mem_filter.mp hmem

/-- C8 witness: on the concrete one-cell state the returned move is the safe
cell and satisfies all three conditions. -/
theorem make_safe_move_spec_witness :
    ((0:ℤ),(0:ℤ)) ∈ safeMoveState.safes ∧ ((0:ℤ),(0:ℤ)) ∉ safeMoveState.mines ∧
      ((0:ℤ),(0:ℤ)) ∉ safeMoveState.moves_made :=
  (make_safe_move_spec safeMoveState).2 ((0:ℤ),(0:ℤ)) (by decide)

theorem Sentence.mark_mine_idem (s : Sentence) (c : Cell) :
    (s.mark_mine c).mark_mine c = s.mark_mine c := by
  by_cases h : c ∈ s.cells
  · simp [Sentence.mark_mine, h, Finset.not_mem_erase]
  · simp [Sentence.mark_mine, h]

theorem Sentence.mark_safe_idem (s : Sentence) (c : Cell) :
    (s.mark_safe c).mark_safe c = s.mark_safe c := by
  by_cases h : c ∈ s.cells
  · simp [Sentence.mark_safe, h, Finset.not_mem_erase]
  · simp [Sentence.mark_safe, h]

/-- C7: marking the same cell twice, as a mine or as safe, produces exactly
the same state as marking it once, on every component of the state. -/
theorem mark_operations_idempotent (st : MinesweeperAI) (c : Cell) :
    (st.mark_mine c).mark_mine c = st.mark_mine c ∧
    (st.mark_safe c).mark_safe c = st.mark_safe c := by
  constructor
  · apply MinesweeperAI.ext_state
    · rfl
    · rfl
    · rfl
    · simp [Finset.insert_idem]
    · rfl
    · simp only [MinesweeperAI.mark_mine_knowledge, List.map_map]
      apply List.map_congr_left
      intro s _
      exact Sentence.mark_mine_idem s c
  · apply MinesweeperAI.ext_state
    · rfl
    · rfl
    · rfl
    · rfl
    · simp [Finset.insert_idem]
    · simp only [MinesweeperAI.mark_safe_knowledge, List.map_map]
      apply List.map_congr_left
      intro s _
      exact Sentence.mark_safe_idem s c

theorem Sentence.mark_safe_eq_erase (s : Sentence) (c : Cell) :
    s.mark_safe c = { cells := s.cells.erase c, count := s.count } := by
  by_cases h : c ∈ s.cells
  · simp [Sentence.mark_safe, h]
  · simp [Sentence.mark_safe, h, Finset.erase_eq_of_not_mem h]

/-- C10: mark_safe adds the cell to safes and erases it from every sentence's
cell set; every sentence's count, the mines set, the moves_made set, and the
board dimensions are unchanged. -/
theorem mark_safe_frame (st : MinesweeperAI) (c : Cell) :
    (st.mark_safe c).safes = insert c st.safes ∧
    (st.mark_safe c).mines = st.mines ∧
    (st.mark_safe c).moves_made = st.moves_made ∧
    (st.mark_safe c).height = st.height ∧
    (st.mark_safe c).width = st.width ∧
    (st.mark_safe c).knowledge =
      st.knowledge.map fun s => { cells := s.cells.erase c, count := s.count } := by
  refine ⟨rfl, rfl, rfl, rfl, rfl, ?_⟩
  simp only [MinesweeperAI.mark_safe_knowledge]
  apply List.map_congr_left
  intro s _
  exact Sentence.mark_safe_eq_erase s c

/-- C6 counterexample: on the sentence with cells {(0,0)} and count 0, marking
(0,0) as a mine leaves a negative count, so the unconditional claim that the
count stays nonnegative is false. -/
theorem mark_mine_count_negative_counterexample :
    ¬ (0 ≤ ((Sentence.mk {((0:ℤ),(0:ℤ))} 0).mark_mine ((0:ℤ),(0:ℤ))).count) := by
  decide

/-- C6 amended: mark_mine removes the cell and decrements the count when the
cell is present and changes nothing otherwise; the count stays nonnegative
provided it was nonnegative and was at least 1 whenever the cell is present
(as is the case for any sentence whose count counts the mines among its
cells, the marked cell being one of them). -/
theorem mark_mine_spec (s : Sentence) (c : Cell) :
    (c ∈ s.cells →
      s.mark_mine c = { cells := s.cells.erase c, count := s.count - 1 }) ∧
    (c ∉ s.cells → s.mark_mine c = s) ∧
    (0 ≤ s.count → (c ∈ s.cells → 1 ≤ s.count) → 0 ≤ (s.mark_mine c).count) := by
  refine ⟨fun h => by simp [Sentence.mark_mine, h], fun h => by simp [Sentence.mark_mine, h], ?_⟩
  intro h0 h1
  by_cases h : c ∈ s.cells
  · simp only [Sentence.mark_mine, h, if_pos]
    have := h1 h
    omega
  · simp only [Sentence.mark_mine, h, if_neg, not_false_iff]
    exact h0

/-- C6 witness: on the sentence with cells {(0,0)} and count 1, marking (0,0)
removes the cell, decrements the count to 0, and the count stays nonnegative. -/
theorem mark_mine_spec_witness :
    (Sentence.mk {((0:ℤ),(0:ℤ))} 1).mark_mine ((0:ℤ),(0:ℤ)) =
      { cells := ({((0:ℤ),(0:ℤ))} : Finset Cell).erase ((0:ℤ),(0:ℤ)),
        count := (1:ℤ) - 1 } ∧
    0 ≤ ((Sentence.mk {((0:ℤ),(0:ℤ))} 1).mark_mine ((0:ℤ),(0:ℤ))).count :=
  ⟨(mark_mine_spec (Sentence.mk {((0:ℤ),(0:ℤ))} 1) ((0:ℤ),(0:ℤ))).1 (by decide),
   (mark_mine_spec (Sentence.mk {((0:ℤ),(0:ℤ))} 1) ((0:ℤ),(0:ℤ))).2.2 (by decide)
     (fun _ => by decide)⟩

/-! Claim theorems: the observation step and the subset-inference pass. -/

theorem mem_inBoundsNeighbors (height width : ℤ) (cell n : Cell) :
    n ∈ inBoundsNeighbors height width cell ↔
      (n ≠ cell ∧ cell.1 - 1 ≤ n.1 ∧ n.1 ≤ cell.1 + 1 ∧ cell.2 - 1 ≤ n.2 ∧
        n.2 ≤ cell.2 + 1 ∧ 0 ≤ n.1 ∧ n.1 < height ∧ 0 ≤ n.2 ∧ n.2 < width) := by
  unfold inBoundsNeighbors
  simp only [Finset.mem_filter, Finset.mem_product, Finset.mem_Icc]
  tauto

/-- Field-wise description of the observation step (steps 1 to 3 of
add_knowledge), shared by several proofs below. -/
theorem addObservationCore_fields (st : MinesweeperAI) (cell : Cell) (count : ℤ) :
    (st.addObservationCore cell count).moves_made = insert cell st.moves_made ∧
    (st.addObservationCore cell count).safes = insert cell st.safes ∧
    (st.addObservationCore cell count).mines = st.mines ∧
    (st.addObservationCore cell count).height = st.height ∧
    (st.addObservationCore cell count).width = st.width ∧
    (st.addObservationCore cell count).knowledge =
      (st.knowledge.map fun s => s.mark_safe cell) ++
        (if ((inBoundsNeighbors st.height st.width cell).filter
              fun n => n ∉ st.mines ∧ n ∉ st.safes) = ∅ then []
         else [{ cells := (inBoundsNeighbors st.height st.width cell).filter
                   fun n => n ∉ st.mines ∧ n ∉ st.safes,
                 count := count - (((inBoundsNeighbors st.height st.width cell).filter
                   fun n => n ∈ st.mines).card : ℤ) }]) ∧
    ∀ n : Cell, n ∈ inBoundsNeighbors st.height st.width cell ↔
      (n ≠ cell ∧ cell.1 - 1 ≤ n.1 ∧ n.1 ≤ cell.1 + 1 ∧ cell.2 - 1 ≤ n.2 ∧
        n.2 ≤ cell.2 + 1 ∧ 0 ≤ n.1 ∧ n.1 < st.height ∧ 0 ≤ n.2 ∧ n.2 < st.width) := by
  have hfilter : ((inBoundsNeighbors st.height st.width cell).filter
      fun n => n ∉ st.mines ∧ n ∉ insert cell st.safes) =
      ((inBoundsNeighbors st.height st.width cell).filter
      fun n => n ∉ st.mines ∧ n ∉ st.safes) := by
    apply Finset.filter_congr
    intro n hn
    have hne : n ≠ cell := ((mem_inBoundsNeighbors st.height st.width cell n).mp hn).1
    simp [Finset.mem_insert, hne]
  have hcore : st.addObservationCore cell count =
      (if ((inBoundsNeighbors st.height st.width cell).filter
            fun n => n ∉ st.mines ∧ n ∉ insert cell st.safes).Nonempty
       then { height := st.height, width := st.width,
              moves_made := insert cell st.moves_made, mines := st.mines,
              safes := insert cell st.safes,
              knowledge := (st.knowledge.map fun s => s.mark_safe cell) ++
                [{ cells := (inBoundsNeighbors st.height st.width cell).filter
                     fun n => n ∉ st.mines ∧ n ∉ insert cell st.safes,
                   count := count - (((inBoundsNeighbors st.height st.width cell).filter
                     fun n => n ∈ st.mines).card : ℤ) }] }
       else { height := st.height, width := st.width,
              moves_made := insert cell st.moves_made, mines := st.mines,
              safes := insert cell st.safes,
              knowledge := st.knowledge.map fun s => s.mark_safe cell }) := rfl
  rw [hcore, hfilter]
  by_cases h : ((inBoundsNeighbors st.height st.width cell).filter
      fun n => n ∉ st.mines ∧ n ∉ st.safes).Nonempty
  · rw [if_pos h]
    refine ⟨rfl, rfl, rfl, rfl, rfl, ?_, mem_inBoundsNeighbors st.height st.width cell⟩
    rw [if_neg (Finset.nonempty_iff_ne_empty.mp h)]
  · rw [if_neg h]
    refine ⟨rfl, rfl, rfl, rfl, rfl, ?_, mem_inBoundsNeighbors st.height st.width cell⟩
    rw [if_pos (Finset.not_nonempty_iff_eq_empty.mp h), List.append_nil]

/-- C3: processing an ordered pair of structurally distinct sentences (A, B)
with A.cells a nonempty subset of B.cells and positive A.count appends the
derived sentence (B.cells minus A.cells, B.count minus A.count) unless a
structurally equal sentence is already present; and from the two concrete
constraints of the spec the fixed point of the inference loop contains the
derived constraint on the remaining two cells with count 1. -/
theorem subset_inference_spec :
    (∀ (st : MinesweeperAI) (i j : ℕ) (A B : Sentence),
      st.knowledge.getD i { cells := ∅, count := 0 } = A →
      st.knowledge.getD j { cells := ∅, count := 0 } = B →
      B ≠ A → A.cells ⊆ B.cells → A.cells ≠ ∅ → 0 < A.count →
      st.subsetPairStep i j =
        if { cells := B.cells \ A.cells, count := B.count - A.count } ∈ st.knowledge
        then (st, false)
        else ({ st with knowledge :=
            st.knowledge ++ [{ cells := B.cells \ A.cells, count := B.count - A.count }] },
          true)) ∧
    ∃ stF : MinesweeperAI, MinesweeperAI.inferLoop 8 c3Start = some stF ∧
      { cells := ({((1:ℤ),(0:ℤ)), (1,1)} : Finset Cell), count := 1 } ∈ stF.knowledge := by
  constructor
  · intro st i j A B hA hB hne hsub hcne hcount
    unfold MinesweeperAI.subsetPairStep
    rw [hA, hB, if_neg hne, if_pos ⟨hsub, hcne, hcount⟩]
    by_cases hmem : ({ cells := B.cells \ A.cells, count := B.count - A.count } : Sentence)
        ∈ st.knowledge
    · rw [if_neg (by simpa using hmem), if_pos hmem]
    · rw [if_pos (by simpa using hmem), if_neg hmem]
  · exact ⟨c3Final, by decide, by decide⟩

/-- C3 witness: on the concrete start state the pair of the two constraints
appends exactly the derived sentence. -/
theorem subset_inference_spec_witness :
    c3Start.subsetPairStep 0 1 =
      ({ c3Start with knowledge := c3Start.knowledge ++
          [{ cells := ({((0:ℤ),(0:ℤ)), (0,1), (0,2), (1,0), (1,1)} : Finset Cell) \
               ({((0:ℤ),(0:ℤ)), (0,1), (0,2)} : Finset Cell),
             count := 2 - 1 }] }, true) := by
  have h := subset_inference_spec.1 c3Start 0 1
      { cells := {((0:ℤ),(0:ℤ)), (0,1), (0,2)}, count := 1 }
      { cells := {((0:ℤ),(0:ℤ)), (0,1), (0,2), (1,0), (1,1)}, count := 2 }
      (by decide) (by decide) (by decide) (by decide) (by decide) (by decide)
  rw [h, if_neg (by decide)]

/-! Generic preservation machinery for the inference loop. -/

theorem getD_mem_of_lt (l : List Sentence) (k : ℕ) (d : Sentence)
    (h : k < l.length) : l.getD k d ∈ l := by
  rw [List.getD_eq_getElem l d h]
  exact List.getElem_mem h

theorem resolveStep_pres (P : MinesweeperAI → Prop)
    (hm : ∀ st s, P st → s ∈ st.knowledge → ((s.cells.card : ℤ) = s.count) →
      P (st.markMines s.cells))
    (hs : ∀ st s, P st → s ∈ st.knowledge → s.count = 0 → P (st.markSafes s.cells))
    (st : MinesweeperAI) (k : ℕ) (h : P st) : P (st.resolveStep k).1 := by
  have hmm : ∀ st : MinesweeperAI, P st →
      ∀ s, s = st.knowledge.getD k { cells := ∅, count := 0 } →
      ((s.cells.card : ℤ) = s.count) → P (st.markMines s.cells) := by
    intro st hP s hsdef hc
    by_cases hk : k < st.knowledge.length
    · exact hm st s hP (hsdef ▸ getD_mem_of_lt _ _ _ hk) hc
    · have hdef : s = { cells := ∅, count := 0 } :=
        hsdef.trans (List.getD_eq_default _ _ (le_of_not_lt hk))
      rw [hdef]
      show P (st.markMines ∅)
      rw [MinesweeperAI.markMines_empty]
      exact hP
  have hss : ∀ st : MinesweeperAI, P st →
      ∀ s, s = st.knowledge.getD k { cells := ∅, count := 0 } →
      s.count = 0 → P (st.markSafes s.cells) := by
    intro st hP s hsdef hc
    by_cases hk : k < st.knowledge.length
    · exact hs st s hP (hsdef ▸ getD_mem_of_lt _ _ _ hk) hc
    · have hdef : s = { cells := ∅, count := 0 } :=
        hsdef.trans (List.getD_eq_default _ _ (le_of_not_lt hk))
      rw [hdef]
      show P (st.markSafes ∅)
      rw [MinesweeperAI.markSafes_empty]
      exact hP
  unfold MinesweeperAI.resolveStep
  simp only []
  split_ifs with hc1 hc2 hc3
  · exact hss _ (hmm st h _ rfl hc1) _ rfl hc2
  · exact hmm st h _ rfl hc1
  · exact hss st h _ rfl hc3
  · exact h

theorem resolutionPass_pres (P : MinesweeperAI → Prop)
    (hstep : ∀ st k, P st → P (st.resolveStep k).1) (st : MinesweeperAI)
    (h : P st) : P st.resolutionPass.1 := by
  unfold MinesweeperAI.resolutionPass
  have H : ∀ (l : List ℕ) (p : MinesweeperAI × Bool), P p.1 →
      P ((l.foldl (fun p k => let q := p.1.resolveStep k; (q.1, p.2 || q.2)) p)).1 := by
    intro l
    induction l with
    | nil => intro p hp; exact hp
    | cons a t ih => intro p hp; exact ih _ (hstep p.1 a hp)
  exact H _ (st, false) h

theorem subsetPairStep_pres (P : MinesweeperAI → Prop)
    (happ : ∀ st A B, P st → A ∈ st.knowledge → B ∈ st.knowledge →
      A.cells ⊆ B.cells → A.cells ≠ ∅ → 0 < A.count →
      ({ cells := B.cells \ A.cells, count := B.count - A.count } : Sentence)
        ∉ st.knowledge →
      P { st with knowledge := st.knowledge ++
          [{ cells := B.cells \ A.cells, count := B.count - A.count }] })
    (st : MinesweeperAI) (i j : ℕ) (h : P st) : P (st.subsetPairStep i j).1 := by
  unfold MinesweeperAI.subsetPairStep
  simp only []
  split_ifs with h1 h2 h3
  · exact h
  · exact h
  · obtain ⟨hsub, hne, hcount⟩ := h2
    have hi : i < st.knowledge.length := by
      by_contra hlen
      rw [List.getD_eq_default _ _ (le_of_not_lt hlen)] at hne
      exact hne rfl
    have hj : j < st.knowledge.length := by
      by_contra hlen
      rw [List.getD_eq_default _ _ (le_of_not_lt hlen)] at hsub
      exact hne (Finset.subset_empty.mp hsub)
    exact happ st _ _ h (getD_mem_of_lt _ _ _ hi) (getD_mem_of_lt _ _ _ hj)
      hsub hne hcount h3
  · exact h

theorem subsetInnerLoop_pres (P : MinesweeperAI → Prop)
    (hstep : ∀ st i j, P st → P (st.subsetPairStep i j).1) :
    ∀ (fuel : ℕ) (st : MinesweeperAI) (i j : ℕ) (flag : Bool)
      (r : MinesweeperAI × Bool),
      MinesweeperAI.subsetInnerLoop fuel st i j flag = some r → P st → P r.1 := by
  intro fuel
  induction fuel with
  | zero =>
      intro st i j flag r hr hp
      unfold MinesweeperAI.subsetInnerLoop at hr
      split_ifs at hr
      injection hr with hr
      rw [← hr]
      exact hp
  | succ n ih =>
      intro st i j flag r hr hp
      unfold MinesweeperAI.subsetInnerLoop at hr
      split_ifs at hr with hj
      · exact ih _ _ _ _ _ hr (hstep st i j hp)
      · injection hr with hr
        rw [← hr]
        exact hp

theorem subsetOuterLoop_pres (P : MinesweeperAI → Prop)
    (hstep : ∀ st i j, P st → P (st.subsetPairStep i j).1) :
    ∀ (fuel : ℕ) (st : MinesweeperAI) (i : ℕ) (flag : Bool)
      (r : MinesweeperAI × Bool),
      MinesweeperAI.subsetOuterLoop fuel st i flag = some r → P st → P r.1 := by
  intro fuel
  induction fuel with
  | zero =>
      intro st i flag r hr hp
      unfold MinesweeperAI.subsetOuterLoop at hr
      split_ifs at hr
      injection hr with hr
      rw [← hr]
      exact hp
  | succ n ih =>
      intro st i flag r hr hp
      unfold MinesweeperAI.subsetOuterLoop at hr
      split_ifs at hr with hi
      · cases hin : MinesweeperAI.subsetInnerLoop n st i 0 false with
        | none => rw [hin] at hr; exact absurd hr (by simp)
        | some q =>
            obtain ⟨st1, flag1⟩ := q
            rw [hin] at hr
            exact ih _ _ _ _ hr (subsetInnerLoop_pres P hstep n st i 0 false _ hin hp)
      · injection hr with hr
        rw [← hr]
        exact hp

theorem inferLoop_pres (P : MinesweeperAI → Prop)
    (hres : ∀ st, P st → P st.resolutionPass.1)
    (hstep : ∀ st i j, P st → P (st.subsetPairStep i j).1) :
    ∀ (fuel : ℕ) (st st' : MinesweeperAI),
      MinesweeperAI.inferLoop fuel st = some st' → P st → P st' := by
  intro fuel
  induction fuel with
  | zero => intro st st' h hp; exact absurd h (by simp [MinesweeperAI.inferLoop])
  | succ n ih =>
      intro st st' h hp
      unfold MinesweeperAI.inferLoop at h
      simp only [] at h
      cases hso : MinesweeperAI.subsetOuterLoop n st.resolutionPass.1 0 false with
      | none => rw [hso] at h; exact absurd h (by simp)
      | some q =>
          obtain ⟨st2, flag2⟩ := q
          rw [hso] at h
          simp only [] at h
          have h2 : P st2 :=
            subsetOuterLoop_pres P hstep n _ 0 false _ hso (hres st hp)
          split at h
          · exact ih _ _ h h2
          · injection h with h
            rw [← h]
            exact h2

/-- C5: add_knowledge's observation step records the move, marks the observed
cell safe, forms the set of in-bounds neighbors (cells within one row and one
column, excluding the cell itself, inside the board) that are neither known
mines nor known safes, decrements the reported count once per neighbor already
known to be a mine, and appends the resulting sentence exactly when the
undetermined-neighbor set is nonempty. -/
theorem add_knowledge_observation_spec (st : MinesweeperAI) (cell : Cell) (count : ℤ) :
    (st.addObservationCore cell count).moves_made = insert cell st.moves_made ∧
    (st.addObservationCore cell count).safes = insert cell st.safes ∧
    (st.addObservationCore cell count).mines = st.mines ∧
    (st.addObservationCore cell count).height = st.height ∧
    (st.addObservationCore cell count).width = st.width ∧
    (st.addObservationCore cell count).knowledge =
      (st.knowledge.map fun s => s.mark_safe cell) ++
        (if ((inBoundsNeighbors st.height st.width cell).filter
              fun n => n ∉ st.mines ∧ n ∉ st.safes) = ∅ then []
         else [{ cells := (inBoundsNeighbors st.height st.width cell).filter
                   fun n => n ∉ st.mines ∧ n ∉ st.safes,
                 count := count - (((inBoundsNeighbors st.height st.width cell).filter
                   fun n => n ∈ st.mines).card : ℤ) }]) ∧
    ∀ n : Cell, n ∈ inBoundsNeighbors st.height st.width cell ↔
      (n ≠ cell ∧ cell.1 - 1 ≤ n.1 ∧ n.1 ≤ cell.1 + 1 ∧ cell.2 - 1 ≤ n.2 ∧
        n.2 ≤ cell.2 + 1 ∧ 0 ≤ n.1 ∧ n.1 < st.height ∧ 0 ≤ n.2 ∧ n.2 < st.width) :=
  addObservationCore_fields st cell count

/-! Preservation of the ground-truth invariant (C1, C2). -/

theorem consistentInv_markMines (height width : ℤ) (M S : Finset Cell)
    (st : MinesweeperAI) (h : ConsistentInv height width M st) (hS : S ⊆ M) :
    ConsistentInv height width M (st.markMines S) := by
  obtain ⟨hh, hw, hm, hsafe, hk⟩ := h
  refine ⟨hh, hw, Finset.union_subset hm hS, hsafe, ?_⟩
  intro s' hs'
  rw [MinesweeperAI.markMines_knowledge] at hs'
  obtain ⟨s, hsmem, rfl⟩ := List.mem_map.mp hs'
  have hc := hk s hsmem
  have hsub1 : s.cells ∩ S ⊆ s.cells ∩ M := by
    intro x hx
    rw [Finset.mem_inter] at hx ⊢
    exact ⟨hx.1, hS hx.2⟩
  have hset : (s.cells \ S) ∩ M = (s.cells ∩ M) \ (s.cells ∩ S) := by
    ext x
    simp only [Finset.mem_sdiff, Finset.mem_inter]
    constructor
    · rintro ⟨⟨hx1, hx2⟩, hx3⟩
      exact ⟨⟨hx1, hx3⟩, fun hx => hx2 hx.2⟩
    · rintro ⟨⟨hx1, hx3⟩, hx2⟩
      exact ⟨⟨hx1, fun hxS => hx2 ⟨hx1, hxS⟩⟩, hx3⟩
  show s.count - ((s.cells ∩ S).card : ℤ) = (((s.cells \ S) ∩ M).card : ℤ)
  rw [hset, Finset.card_sdiff hsub1, hc, Nat.cast_sub (Finset.card_le_card hsub1)]

theorem consistentInv_markSafes (height width : ℤ) (M S : Finset Cell)
    (st : MinesweeperAI) (h : ConsistentInv height width M st)
    (hS : ∀ c ∈ S, c ∉ M) : ConsistentInv height width M (st.markSafes S) := by
  obtain ⟨hh, hw, hm, hsafe, hk⟩ := h
  refine ⟨hh, hw, hm, ?_, ?_⟩
  · intro c hc
    rcases Finset.mem_union.mp hc with hc | hc
    · exact hsafe c hc
    · exact hS c hc
  · intro s' hs'
    rw [MinesweeperAI.markSafes_knowledge] at hs'
    obtain ⟨s, hsmem, rfl⟩ := List.mem_map.mp hs'
    have hc := hk s hsmem
    have hset : (s.cells \ S) ∩ M = s.cells ∩ M := by
      ext x
      simp only [Finset.mem_sdiff, Finset.mem_inter]
      constructor
      · rintro ⟨⟨hx1, _⟩, hx3⟩
        exact ⟨hx1, hx3⟩
      · rintro ⟨hx1, hx3⟩
        exact ⟨⟨hx1, fun hxS => hS x hxS hx3⟩, hx3⟩
  
    show s.count = (((s.cells \ S) ∩ M).card : ℤ)
    rw [hset]
    exact hc

theorem consistentInv_append (height width : ℤ) (M : Finset Cell)
    (st : MinesweeperAI) (h : ConsistentInv height width M st) (A B : Sentence)
    (hA : A ∈ st.knowledge) (hB : B ∈ st.knowledge) (hsub : A.cells ⊆ B.cells) :
    ConsistentInv height width M
      { st with knowledge := st.knowledge ++
          [{ cells := B.cells \ A.cells, count := B.count - A.count }] } := by
  obtain ⟨hh, hw, hm, hsafe, hk⟩ := h
  refine ⟨hh, hw, hm, hsafe, ?_⟩
  intro s' hs'
  simp only [List.mem_append, List.mem_singleton] at hs'
  rcases hs' with hs' | rfl
  · exact hk s' hs'
  · have hcA := hk A hA
    have hcB := hk B hB
    have hsub1 : A.cells ∩ M ⊆ B.cells ∩ M := by
      intro x hx
      rw [Finset.mem_inter] at hx ⊢
      exact ⟨hsub hx.1, hx.2⟩
    have hset : (B.cells \ A.cells) ∩ M = (B.cells ∩ M) \ (A.cells ∩ M) := by
      ext x
      simp only [Finset.mem_sdiff, Finset.mem_inter]
      constructor
      · rintro ⟨⟨hx1, hx2⟩, hx3⟩
        exact ⟨⟨hx1, hx3⟩, fun hx => hx2 hx.1⟩
      · rintro ⟨⟨hx1, hx3⟩, hx2⟩
        exact ⟨⟨hx1, fun hxA => hx2 ⟨hxA, hx3⟩⟩, hx3⟩
    show B.count - A.count = (((B.cells \ A.cells) ∩ M).card : ℤ)
    rw [hset, Finset.card_sdiff hsub1, hcA, hcB,
      Nat.cast_sub (Finset.card_le_card hsub1)]

theorem consistentInv_core (height width : ℤ) (M : Finset Cell)
    (st : MinesweeperAI) (h : ConsistentInv height width M st) (cell : Cell)
    (hcell : cell ∉ M) :
    ConsistentInv height width M
      (st.addObservationCore cell
        (((inBoundsNeighbors height width cell) ∩ M).card : ℤ)) := by
  obtain ⟨hh, hw, hm, hsafe, hk⟩ := h
  obtain ⟨hmo, hsa, hmi, hht, hwd, hkn, _⟩ :=
    addObservationCore_fields st cell (((inBoundsNeighbors height width cell) ∩ M).card : ℤ)
  refine ⟨hht.trans hh, hwd.trans hw, hmi ▸ hm, ?_, ?_⟩
  · rw [hsa]
    intro c hc
    rcases Finset.mem_insert.mp hc with rfl | hc
    · exact hcell
    · exact hsafe c hc
  · intro s' hs'
    rw [hkn] at hs'
    rcases List.mem_append.mp hs' with hs' | hs'
    · obtain ⟨s, hsmem, rfl⟩ := List.mem_map.mp hs'
      rw [Sentence.mark_safe_eq_erase]
      show s.count = (((s.cells.erase cell) ∩ M).card : ℤ)
      have hset : (s.cells.erase cell) ∩ M = s.cells ∩ M := by
        ext x
        simp only [Finset.mem_inter, Finset.mem_erase]
        constructor
        · rintro ⟨⟨_, hx1⟩, hx2⟩
          exact ⟨hx1, hx2⟩
        · rintro ⟨hx1, hx2⟩
          exact ⟨⟨fun he => hcell (he ▸ hx2), hx1⟩, hx2⟩
      rw [hset]
      exact hk s hsmem
    · rw [hh, hw] at hs'
      by_cases hemp : ((inBoundsNeighbors height width cell).filter
          fun n => n ∉ st.mines ∧ n ∉ st.safes) = ∅
      · rw [if_pos hemp] at hs'
        exact absurd hs' (by simp)
      · rw [if_neg hemp] at hs'
        rw [List.mem_singleton] at hs'
        subst hs'
        show (((inBoundsNeighbors height width cell) ∩ M).card : ℤ) - _ =
          ((((inBoundsNeighbors height width cell).filter
            fun n => n ∉ st.mines ∧ n ∉ st.safes) ∩ M).card : ℤ)
        have hfe : (inBoundsNeighbors height width cell).filter (fun n => n ∈ st.mines) =
            (inBoundsNeighbors height width cell) ∩ st.mines :=
          Finset.filter_mem_eq_inter
        have hsusM : ((inBoundsNeighbors height width cell).filter
            (fun n => n ∉ st.mines ∧ n ∉ st.safes)) ∩ M =
            ((inBoundsNeighbors height width cell) ∩ M) \
              ((inBoundsNeighbors height width cell) ∩ st.mines) := by
          ext x
          simp only [Finset.mem_inter, Finset.mem_filter, Finset.mem_sdiff]
          constructor
          · rintro ⟨⟨hx1, hx2, _⟩, hx4⟩
            exact ⟨⟨hx1, hx4⟩, fun hx => hx2 hx.2⟩
          · rintro ⟨⟨hx1, hx4⟩, hx2⟩
            exact ⟨⟨hx1, fun hxm => hx2 ⟨hx1, hxm⟩, fun hxs => hsafe x hxs hx4⟩, hx4⟩
        have hsub1 : (inBoundsNeighbors height width cell) ∩ st.mines ⊆
            (inBoundsNeighbors height width cell) ∩ M := by
          intro x hx
          rw [Finset.mem_inter] at hx ⊢
          exact ⟨hx.1, hm hx.2⟩
        rw [hfe, hsusM, Finset.card_sdiff hsub1,
          Nat.cast_sub (Finset.card_le_card hsub1)]

theorem consistentInv_of_reaches (height width : ℤ) (M : Finset Cell)
    (st : MinesweeperAI) (h : ReachesConsistent height width M st) :
    ConsistentInv height width M st := by
  induction h with
  | init =>
      exact ⟨rfl, rfl, Finset.empty_subset M, by simp [MinesweeperAI.init],
        by simp [MinesweeperAI.init]⟩
  | step st st' cell fuel _ hcell hmove hadd ih =>
      have hm : ∀ st s, ConsistentInv height width M st → s ∈ st.knowledge →
          ((s.cells.card : ℤ) = s.count) →
          ConsistentInv height width M (st.markMines s.cells) := by
        intro st s hinv hsmem hcard
        have hc := hinv.2.2.2.2 s hsmem
        have hcard2 : s.cells.card = (s.cells ∩ M).card := by
          have := hcard.trans hc
          exact_mod_cast this
        have hcells : s.cells ∩ M = s.cells :=
          Finset.eq_of_subset_of_card_le Finset.inter_subset_left (le_of_eq hcard2)
        have hsubM : s.cells ⊆ M := by
          intro x hx
          have : x ∈ s.cells ∩ M := hcells.symm ▸ hx
          exact (Finset.mem_inter.mp this).2
        exact consistentInv_markMines height width M s.cells st hinv hsubM
      have hs : ∀ st s, ConsistentInv height width M st → s ∈ st.knowledge →
          s.count = 0 → ConsistentInv height width M (st.markSafes s.cells) := by
        intro st s hinv hsmem hzero
        have hc := hinv.2.2.2.2 s hsmem
        have hz : (s.cells ∩ M).card = 0 := by
          have := hzero ▸ hc
          exact_mod_cast this.symm
        have hempty : s.cells ∩ M = ∅ := Finset.card_eq_zero.mp hz
        refine consistentInv_markSafes height width M s.cells st hinv ?_
        intro c hc2 hcM
        have : c ∈ s.cells ∩ M := Finset.mem_inter.mpr ⟨hc2, hcM⟩
        rw [hempty] at this
        exact absurd this (Finset.not_mem_empty c)
      have hstep : ∀ st i j, ConsistentInv height width M st →
          ConsistentInv height width M (st.subsetPairStep i j).1 := by
        intro st i j hinv
        refine subsetPairStep_pres _ ?_ st i j hinv
        intro st A B hinv hA hB hsub _ _ _
        exact consistentInv_append height width M st hinv A B hA hB hsub
      have hres : ∀ st, ConsistentInv height width M st →
          ConsistentInv height width M st.resolutionPass.1 := by
        intro st hinv
        exact resolutionPass_pres _ (fun st k h => resolveStep_pres _ hm hs st k h) st hinv
      exact inferLoop_pres _ hres hstep fuel _ st' hadd
        (consistentInv_core height width M st ih cell hcell)

/-- C1: in every state reachable by observations consistent with a single
ground-truth mine layout that never re-observe a cell, every sentence of the
knowledge base satisfies 0 <= count <= number of cells. -/
theorem knowledge_counts_in_range (height width : ℤ) (M : Finset Cell)
    (st : MinesweeperAI) (hreach : ReachesConsistent height width M st) :
    ∀ s ∈ st.knowledge, 0 ≤ s.count ∧ s.count ≤ (s.cells.card : ℤ) := by
  have hinv := consistentInv_of_reaches height width M st hreach
  intro s hs
  have hc := hinv.2.2.2.2 s hs
  constructor
  · rw [hc]
    exact_mod_cast Nat.zero_le _
  · rw [hc]
    exact_mod_cast Finset.card_le_card Finset.inter_subset_left

/-- C2: in every state reachable by observations consistent with a single
ground-truth mine layout that never re-observe a cell, the safes and mines
sets are disjoint. -/
theorem safes_mines_disjoint (height width : ℤ) (M : Finset Cell)
    (st : MinesweeperAI) (hreach : ReachesConsistent height width M st) :
    st.safes ∩ st.mines = ∅ := by
  have hinv := consistentInv_of_reaches height width M st hreach
  ext c
  simp only [Finset.mem_inter, Finset.not_mem_empty, iff_false, not_and]
  intro hcs hcm
  exact hinv.2.2.2.1 c hcs (hinv.2.2.1 hcm)

/-- C1 witness: after the concrete consistent observation on the 2 by 2 board
the single sentence of the knowledge base has its count within range. -/
theorem knowledge_counts_in_range_witness :
    0 ≤ (Sentence.mk {((0:ℤ),(1:ℤ)), (1,0), (1,1)} 1).count ∧
    (Sentence.mk {((0:ℤ),(1:ℤ)), (1,0), (1,1)} 1).count ≤
      ((Sentence.mk {((0:ℤ),(1:ℤ)), (1,0), (1,1)} 1).cells.card : ℤ) :=
  knowledge_counts_in_range 2 2 {((1:ℤ),(1:ℤ))} c12Observed
    (ReachesConsistent.step (MinesweeperAI.init 2 2) c12Observed ((0:ℤ),(0:ℤ)) 3
      ReachesConsistent.init (by decide) (by decide) (by decide))
    (Sentence.mk {((0:ℤ),(1:ℤ)), (1,0), (1,1)} 1) (by decide)

/-- C2 witness: after the concrete consistent observation on the 2 by 2 board
the safes and mines sets are disjoint. -/
theorem safes_mines_disjoint_witness :
    c12Observed.safes ∩ c12Observed.mines = ∅ :=
  safes_mines_disjoint 2 2 {((1:ℤ),(1:ℤ))} c12Observed
    (ReachesConsistent.step (MinesweeperAI.init 2 2) c12Observed ((0:ℤ),(0:ℤ)) 3
      ReachesConsistent.init (by decide) (by decide) (by decide))

/-! Board bounds invariant (C9). -/

theorem mem_board (height width : ℤ) (c : Cell) :
    c ∈ board height width ↔
      0 ≤ c.1 ∧ c.1 < height ∧ 0 ≤ c.2 ∧ c.2 < width := by
  unfold board
  simp only [Finset.mem_product, Finset.mem_Icc]
  omega

theorem inBoundsNeighbors_subset_board (height width : ℤ) (cell : Cell) :
    inBoundsNeighbors height width cell ⊆ board height width := by
  intro n hn
  have h := (mem_inBoundsNeighbors height width cell n).mp hn
  rw [mem_board]
  exact ⟨h.2.2.2.2.2.1, h.2.2.2.2.2.2.1, h.2.2.2.2.2.2.2.1, h.2.2.2.2.2.2.2.2⟩

theorem boundsInv_markMines (height width : ℤ) (S : Finset Cell)
    (st : MinesweeperAI) (h : BoundsInv height width st) :
    BoundsInv height width (st.markMines S) := by
  obtain ⟨hh, hw, hk⟩ := h
  refine ⟨hh, hw, ?_⟩
  intro s' hs'
  rw [MinesweeperAI.markMines_knowledge] at hs'
  obtain ⟨s, hsmem, rfl⟩ := List.mem_map.mp hs'
  exact fun x hx => hk s hsmem ((Finset.mem_sdiff.mp hx).1)

theorem boundsInv_markSafes (height width : ℤ) (S : Finset Cell)
    (st : MinesweeperAI) (h : BoundsInv height width st) :
    BoundsInv height width (st.markSafes S) := by
  obtain ⟨hh, hw, hk⟩ := h
  refine ⟨hh, hw, ?_⟩
  intro s' hs'
  rw [MinesweeperAI.markSafes_knowledge] at hs'
  obtain ⟨s, hsmem, rfl⟩ := List.mem_map.mp hs'
  exact fun x hx => hk s hsmem ((Finset.mem_sdiff.mp hx).1)

theorem boundsInv_core (height width : ℤ) (st : MinesweeperAI)
    (h : BoundsInv height width st) (cell : Cell) (count : ℤ) :
    BoundsInv height width (st.addObservationCore cell count) := by
  obtain ⟨hh, hw, hk⟩ := h
  obtain ⟨_, _, _, hht, hwd, hkn, _⟩ := addObservationCore_fields st cell count
  refine ⟨hht.trans hh, hwd.trans hw, ?_⟩
  intro s' hs'
  rw [hkn] at hs'
  rcases List.mem_append.mp hs' with hs' | hs'
  · obtain ⟨s, hsmem, rfl⟩ := List.mem_map.mp hs'
    rw [Sentence.mark_safe_eq_erase]
    intro x hx
    exact hk s hsmem (Finset.mem_of_mem_erase hx)
  · by_cases hemp : ((inBoundsNeighbors st.height st.width cell).filter
        fun n => n ∉ st.mines ∧ n ∉ st.safes) = ∅
    · rw [if_pos hemp] at hs'
      exact absurd hs' (by simp)
    · rw [if_neg hemp] at hs'
      rw [List.mem_singleton] at hs'
      subst hs'
      intro x hx
      have hx2 : x ∈ inBoundsNeighbors st.height st.width cell :=
        Finset.mem_of_mem_filter x hx
      rw [hh, hw] at hx2
      exact inBoundsNeighbors_subset_board height width cell hx2

theorem boundsInv_of_reaches (height width : ℤ) (st : MinesweeperAI)
    (h : ReachesIB height width st) : BoundsInv height width st := by
  induction h with
  | init => exact ⟨rfl, rfl, by simp [CellsWithin, MinesweeperAI.init]⟩
  | step st st' cell count fuel _ h1 h2 h3 h4 hadd ih =>
      have hstep : ∀ st i j, BoundsInv height width st →
          BoundsInv height width (st.subsetPairStep i j).1 := by
        intro st i j hinv
        refine subsetPairStep_pres _ ?_ st i j hinv
        intro st A B hinv hA hB hsub _ _ _
        obtain ⟨hh, hw, hk⟩ := hinv
        refine ⟨hh, hw, ?_⟩
        intro s' hs'
        simp only [List.mem_append, List.mem_singleton] at hs'
        rcases hs' with hs' | rfl
        · exact hk s' hs'
        · intro x hx
          exact hk B hB (Finset.mem_sdiff.mp hx).1
      have hres : ∀ st, BoundsInv height width st →
          BoundsInv height width st.resolutionPass.1 := by
        intro st hinv
        refine resolutionPass_pres _ (fun st k h => resolveStep_pres _ ?_ ?_ st k h) st hinv
        · intro st s hinv _ _
          exact boundsInv_markMines height width s.cells st hinv
        · intro st s hinv _ _
          exact boundsInv_markSafes height width s.cells st hinv
      exact inferLoop_pres _ hres hstep fuel _ st' hadd
        (boundsInv_core height width st ih cell count)

/-- C9: in every state reachable from a fresh instance by in-bounds
add_knowledge calls, every cell mentioned by a sentence lies on the board;
moreover neighbor enumeration only admits in-bounds cells and each sentence
added by the subset-inference step has its cells inside the cells of an
existing sentence. -/
theorem knowledge_cells_in_bounds (height width : ℤ) (st : MinesweeperAI)
    (hreach : ReachesIB height width st) :
    (∀ s ∈ st.knowledge, ∀ c ∈ s.cells,
      0 ≤ c.1 ∧ c.1 < height ∧ 0 ≤ c.2 ∧ c.2 < width) ∧
    (∀ cell : Cell, inBoundsNeighbors height width cell ⊆ board height width) ∧
    (∀ (st2 : MinesweeperAI) (i j : ℕ), ∀ s ∈ (st2.subsetPairStep i j).1.knowledge,
      s ∈ st2.knowledge ∨ ∃ t ∈ st2.knowledge, s.cells ⊆ t.cells) := by
  refine ⟨?_, inBoundsNeighbors_subset_board height width, ?_⟩
  · have hinv := boundsInv_of_reaches height width st hreach
    intro s hs c hc
    have := (mem_board height width c).mp (hinv.2.2 s hs hc)
    exact this
  · intro st2 i j s hs
    revert hs
    unfold MinesweeperAI.subsetPairStep
    simp only []
    split_ifs with h1 h2 h3
    · exact fun hs => Or.inl hs
    · exact fun hs => Or.inl hs
    · intro hs
      obtain ⟨hsub, hne, hcount⟩ := h2
      simp only [List.mem_append, List.mem_singleton] at hs
      rcases hs with hs | rfl
      · exact Or.inl hs
      · refine Or.inr ⟨st2.knowledge.getD j { cells := ∅, count := 0 }, ?_, ?_⟩
        · have hj : j < st2.knowledge.length := by
            by_contra hlen
            rw [List.getD_eq_default _ _ (le_of_not_lt hlen)] at hsub
            exact hne (Finset.subset_empty.mp hsub)
          exact getD_mem_of_lt _ _ _ hj
        · exact Finset.sdiff_subset
    · exact fun hs => Or.inl hs

/-- C9 witness: in the concrete reachable state every cell of the single
sentence is on the 2 by 2 board; in particular the cell (0,1). -/
theorem knowledge_cells_in_bounds_witness :
    0 ≤ ((0:ℤ),(1:ℤ)).1 ∧ ((0:ℤ),(1:ℤ)).1 < 2 ∧ 0 ≤ ((0:ℤ),(1:ℤ)).2 ∧
      ((0:ℤ),(1:ℤ)).2 < 2 :=
  (knowledge_cells_in_bounds 2 2 c12Observed
    (ReachesIB.step (MinesweeperAI.init 2 2) c12Observed ((0:ℤ),(0:ℤ)) 1 3
      ReachesIB.init (by decide) (by decide) (by decide) (by decide) (by decide))).1
    (Sentence.mk {((0:ℤ),(1:ℤ)), (1,0), (1,1)} 1) (by decide) ((0:ℤ),(1:ℤ)) (by decide)

/-! Quantitative facts about the subset-inference pass, for termination. -/

theorem subsetPairStep_cases (st : MinesweeperAI) (i j : ℕ) :
    st.subsetPairStep i j = (st, false) ∨
    ((st.subsetPairStep i j).2 = true ∧
      ∃ ns : Sentence, ns ∉ st.knowledge ∧
        (st.subsetPairStep i j).1 = { st with knowledge := st.knowledge ++ [ns] } ∧
        ∃ A, A ∈ st.knowledge ∧ ∃ B, B ∈ st.knowledge ∧ A.cells ⊆ B.cells ∧
          A.cells ≠ ∅ ∧ 0 < A.count ∧
          ns = { cells := B.cells \ A.cells, count := B.count - A.count }) := by
  unfold MinesweeperAI.subsetPairStep
  simp only []
  split_ifs with h1 h2 h3
  · exact Or.inl rfl
  · exact Or.inl rfl
  · obtain ⟨hsub, hne, hcount⟩ := h2
    have hi : i < st.knowledge.length := by
      by_contra hlen
      rw [List.getD_eq_default _ _ (le_of_not_lt hlen)] at hne
      exact hne rfl
    have hj : j < st.knowledge.length := by
      by_contra hlen
      rw [List.getD_eq_default _ _ (le_of_not_lt hlen)] at hsub
      exact hne (Finset.subset_empty.mp hsub)
    exact Or.inr ⟨rfl, _, h3, rfl,
      _, getD_mem_of_lt _ _ _ hi, _, getD_mem_of_lt _ _ _ hj, hsub, hne, hcount, rfl⟩
  · exact Or.inl rfl

theorem subsetPairStep_frame (st : MinesweeperAI) (i j : ℕ) :
    (st.subsetPairStep i j).1.mines = st.mines ∧
    (st.subsetPairStep i j).1.safes = st.safes ∧
    (st.subsetPairStep i j).1.moves_made = st.moves_made ∧
    (st.subsetPairStep i j).1.height = st.height ∧
    (st.subsetPairStep i j).1.width = st.width := by
  unfold MinesweeperAI.subsetPairStep
  simp only []
  split_ifs <;> exact ⟨rfl, rfl, rfl, rfl, rfl⟩

theorem subsetPairStep_flag_false (st : MinesweeperAI) (i j : ℕ)
    (h : (st.subsetPairStep i j).2 = false) : (st.subsetPairStep i j).1 = st := by
  rcases subsetPairStep_cases st i j with hc | ⟨hflag, _⟩
  · rw [hc]
  · rw [h] at hflag
    exact absurd hflag (by simp)

/-! Fuel monotonicity of the fueled loops. -/

theorem subsetInnerLoop_mono :
    ∀ (f f' : ℕ), f ≤ f' → ∀ (st : MinesweeperAI) (i j : ℕ) (flag : Bool)
      (r : MinesweeperAI × Bool),
      MinesweeperAI.subsetInnerLoop f st i j flag = some r →
      MinesweeperAI.subsetInnerLoop f' st i j flag = some r := by
  intro f
  induction f with
  | zero =>
      intro f' _ st i j flag r hr
      unfold MinesweeperAI.subsetInnerLoop at hr
      split_ifs at hr with hj
      injection hr with hr
      cases f' with
      | zero =>
          unfold MinesweeperAI.subsetInnerLoop
          rw [if_neg hj, hr]
      | succ k =>
          unfold MinesweeperAI.subsetInnerLoop
          rw [if_neg hj, hr]
  | succ k ih =>
      intro f' hff st i j flag r hr
      unfold MinesweeperAI.subsetInnerLoop at hr
      obtain ⟨k', rfl⟩ : ∃ k', f' = k' + 1 := ⟨f' - 1, by omega⟩
      have hkk : k ≤ k' := by omega
      unfold MinesweeperAI.subsetInnerLoop
      split_ifs at hr with hj
      · rw [if_pos hj]
        exact ih k' hkk _ _ _ _ _ hr
      · rw [if_neg hj]
        exact hr

theorem subsetOuterLoop_mono :
    ∀ (f f' : ℕ), f ≤ f' → ∀ (st : MinesweeperAI) (i : ℕ) (flag : Bool)
      (r : MinesweeperAI × Bool),
      MinesweeperAI.subsetOuterLoop f st i flag = some r →
      MinesweeperAI.subsetOuterLoop f' st i flag = some r := by
  intro f
  induction f with
  | zero =>
      intro f' _ st i flag r hr
      unfold MinesweeperAI.subsetOuterLoop at hr
      split_ifs at hr with hi
      injection hr with hr
      cases f' with
      | zero =>
          unfold MinesweeperAI.subsetOuterLoop
          rw [if_neg hi, hr]
      | succ k =>
          unfold MinesweeperAI.subsetOuterLoop
          rw [if_neg hi, hr]
  | succ k ih =>
      intro f' hff st i flag r hr
      unfold MinesweeperAI.subsetOuterLoop at hr
      obtain ⟨k', rfl⟩ : ∃ k', f' = k' + 1 := ⟨f' - 1, by omega⟩
      have hkk : k ≤ k' := by omega
      unfold MinesweeperAI.subsetOuterLoop
      split_ifs at hr with hi
      · rw [if_pos hi]
        cases hin : MinesweeperAI.subsetInnerLoop k st i 0 false with
        | none => rw [hin] at hr; exact absurd hr (by simp)
        | some q =>
            rw [hin] at hr
            rw [subsetInnerLoop_mono k k' hkk _ _ _ _ _ hin]
            exact ih k' hkk _ _ _ _ hr
      · rw [if_neg hi]
        exact hr

theorem inferLoop_mono :
    ∀ (f f' : ℕ), f ≤ f' → ∀ (st st' : MinesweeperAI),
      MinesweeperAI.inferLoop f st = some st' →
      MinesweeperAI.inferLoop f' st = some st' := by
  intro f
  induction f with
  | zero =>
      intro f' _ st st' hr
      exact absurd hr (by simp [MinesweeperAI.inferLoop])
  | succ k ih =>
      intro f' hff st st' hr
      obtain ⟨k', rfl⟩ : ∃ k', f' = k' + 1 := ⟨f' - 1, by omega⟩
      have hkk : k ≤ k' := by omega
      unfold MinesweeperAI.inferLoop at hr ⊢
      simp only [] at hr ⊢
      cases hso : MinesweeperAI.subsetOuterLoop k st.resolutionPass.1 0 false with
      | none => rw [hso] at hr; exact absurd hr (by simp)
      | some q =>
          obtain ⟨st2, flag2⟩ := q
          rw [hso] at hr
          simp only [] at hr
          rw [subsetOuterLoop_mono k k' hkk _ _ _ _ hso]
          simp only []
          by_cases hflag : (st.resolutionPass.2 || flag2) = true
          · rw [if_pos hflag] at hr ⊢
            exact ih k' hkk _ _ hr
          · rw [if_neg hflag] at hr ⊢
            exact hr

/-! Preservation of the termination invariant. -/

theorem termInv_markMines (B : Finset Cell) (C0 M0 : ℤ) (S : Finset Cell)
    (st : MinesweeperAI) (h : TermInv B C0 M0 st) :
    TermInv B C0 M0 (st.markMines S) := by
  obtain ⟨hnk, hb, hc⟩ := h
  refine ⟨?_, ?_, ?_⟩
  · intro s' hs' c hcmem
    rw [MinesweeperAI.markMines_knowledge] at hs'
    obtain ⟨s, hsmem, rfl⟩ := List.mem_map.mp hs'
    have hcc := Finset.mem_sdiff.mp hcmem
    have hnk2 := hnk s hsmem c hcc.1
    rw [MinesweeperAI.markMines_mines, MinesweeperAI.markMines_safes]
    refine ⟨?_, hnk2.2⟩
    rw [Finset.mem_union]
    rintro (hm | hS)
    · exact hnk2.1 hm
    · exact hcc.2 hS
  · intro s' hs'
    rw [MinesweeperAI.markMines_knowledge] at hs'
    obtain ⟨s, hsmem, rfl⟩ := List.mem_map.mp hs'
    exact fun x hx => hb s hsmem (Finset.mem_sdiff.mp hx).1
  · intro s' hs'
    rw [MinesweeperAI.markMines_knowledge] at hs'
    obtain ⟨s, hsmem, rfl⟩ := List.mem_map.mp hs'
    obtain ⟨h1, h2⟩ := hc s hsmem
    have hσ : (1:ℤ) ≤ max M0 1 := le_max_right M0 1
    have hb0 : (0:ℤ) ≤ ((s.cells ∩ S).card : ℤ) := Int.natCast_nonneg _
    have hsplit : ((s.cells \ S).card : ℤ) + ((s.cells ∩ S).card : ℤ) =
        (s.cells.card : ℤ) := by
      exact_mod_cast congrArg (Nat.cast : ℕ → ℤ) (Finset.card_sdiff_add_card_inter s.cells S)
    constructor
    · show s.count - ((s.cells ∩ S).card : ℤ) ≤ M0
      linarith
    · show C0 + (max M0 1) * (((s.cells \ S).card : ℤ)) ≤
        s.count - ((s.cells ∩ S).card : ℤ)
      have hmul : ((s.cells ∩ S).card : ℤ) ≤ (max M0 1) * ((s.cells ∩ S).card : ℤ) :=
        le_mul_of_one_le_left hb0 hσ
      nlinarith [h2, hsplit, hmul]

theorem termInv_markSafes (B : Finset Cell) (C0 M0 : ℤ) (S : Finset Cell)
    (st : MinesweeperAI) (h : TermInv B C0 M0 st) :
    TermInv B C0 M0 (st.markSafes S) := by
  obtain ⟨hnk, hb, hc⟩ := h
  refine ⟨?_, ?_, ?_⟩
  · intro s' hs' c hcmem
    rw [MinesweeperAI.markSafes_knowledge] at hs'
    obtain ⟨s, hsmem, rfl⟩ := List.mem_map.mp hs'
    have hcc := Finset.mem_sdiff.mp hcmem
    have hnk2 := hnk s hsmem c hcc.1
    rw [MinesweeperAI.markSafes_mines, MinesweeperAI.markSafes_safes]
    refine ⟨hnk2.1, ?_⟩
    rw [Finset.mem_union]
    rintro (hsa | hS)
    · exact hnk2.2 hsa
    · exact hcc.2 hS
  · intro s' hs'
    rw [MinesweeperAI.markSafes_knowledge] at hs'
    obtain ⟨s, hsmem, rfl⟩ := List.mem_map.mp hs'
    exact fun x hx => hb s hsmem (Finset.mem_sdiff.mp hx).1
  · intro s' hs'
    rw [MinesweeperAI.markSafes_knowledge] at hs'
    obtain ⟨s, hsmem, rfl⟩ := List.mem_map.mp hs'
    obtain ⟨h1, h2⟩ := hc s hsmem
    have hσ : (0:ℤ) ≤ max M0 1 := le_trans zero_le_one (le_max_right M0 1)
    have hcard : ((s.cells \ S).card : ℤ) ≤ (s.cells.card : ℤ) := by
      exact_mod_cast Finset.card_le_card (Finset.sdiff_subset)
    refine ⟨h1, ?_⟩
    show C0 + (max M0 1) * (((s.cells \ S).card : ℤ)) ≤ s.count
    have hmul : (max M0 1) * (((s.cells \ S).card : ℤ)) ≤
        (max M0 1) * ((s.cells.card : ℤ)) := mul_le_mul_of_nonneg_left hcard hσ
    linarith

theorem termInv_append (B : Finset Cell) (C0 M0 : ℤ) (st : MinesweeperAI)
    (h : TermInv B C0 M0 st) (A B2 : Sentence) (hA : A ∈ st.knowledge)
    (hB : B2 ∈ st.knowledge) (hsub : A.cells ⊆ B2.cells) (hne : A.cells ≠ ∅)
    (hcount : 0 < A.count) :
    TermInv B C0 M0
      { st with knowledge := st.knowledge ++
          [{ cells := B2.cells \ A.cells, count := B2.count - A.count }] } := by
  obtain ⟨hnk, hb, hc⟩ := h
  have hmemdec : ∀ s' : Sentence, s' ∈ st.knowledge ++
      [{ cells := B2.cells \ A.cells, count := B2.count - A.count }] →
      s' ∈ st.knowledge ∨
        s' = { cells := B2.cells \ A.cells, count := B2.count - A.count } := by
    intro s' hs'
    simpa using List.mem_append.mp hs'
  refine ⟨?_, ?_, ?_⟩
  · intro s' hs' c hcmem
    rcases hmemdec s' hs' with hs' | rfl
    · exact hnk s' hs' c hcmem
    · exact hnk B2 hB c (Finset.mem_sdiff.mp hcmem).1
  · intro s' hs'
    rcases hmemdec s' hs' with hs' | rfl
    · exact hb s' hs'
    · exact fun x hx => hb B2 hB (Finset.mem_sdiff.mp hx).1
  · intro s' hs'
    rcases hmemdec s' hs' with hs' | rfl
    · exact hc s' hs'
    · obtain ⟨hA1, hA2⟩ := hc A hA
      obtain ⟨hB1, hB2⟩ := hc B2 hB
      have hσ1 : (1:ℤ) ≤ max M0 1 := le_max_right M0 1
      have hσM : M0 ≤ max M0 1 := le_max_left M0 1
      have hApos : 1 ≤ (A.cells.card : ℤ) := by
        have : 0 < A.cells.card :=
          Finset.card_pos.mpr (Finset.nonempty_iff_ne_empty.mpr hne)
        exact_mod_cast this
      have hcard : ((B2.cells \ A.cells).card : ℤ) =
          (B2.cells.card : ℤ) - (A.cells.card : ℤ) := by
        rw [Finset.card_sdiff hsub,
          Nat.cast_sub (Finset.card_le_card hsub)]
      constructor
      · show B2.count - A.count ≤ M0
        linarith
      · show C0 + (max M0 1) * (((B2.cells \ A.cells).card : ℤ)) ≤
          B2.count - A.count
        have hAM : A.count ≤ max M0 1 := le_trans hA1 hσM
        have hd : ((B2.cells \ A.cells).card : ℤ) ≤ (B2.cells.card : ℤ) - 1 := by
          rw [hcard]; linarith
        have hσ0 : (0:ℤ) ≤ max M0 1 := le_trans zero_le_one hσ1
        have hmul : (max M0 1) * (((B2.cells \ A.cells).card : ℤ)) ≤
            (max M0 1) * ((B2.cells.card : ℤ) - 1) :=
          mul_le_mul_of_nonneg_left hd hσ0
        nlinarith [hB2]

theorem termInv_pairStep (B : Finset Cell) (C0 M0 : ℤ) (st : MinesweeperAI)
    (i j : ℕ) (h : TermInv B C0 M0 st) :
    TermInv B C0 M0 (st.subsetPairStep i j).1 := by
  refine subsetPairStep_pres _ ?_ st i j h
  intro st A B2 h hA hB hsub hne hcount _
  exact termInv_append B C0 M0 st h A B2 hA hB hsub hne hcount

theorem termInv_resolveStep (B : Finset Cell) (C0 M0 : ℤ) (st : MinesweeperAI)
    (k : ℕ) (h : TermInv B C0 M0 st) : TermInv B C0 M0 (st.resolveStep k).1 := by
  refine resolveStep_pres _ ?_ ?_ st k h
  · intro st s h _ _
    exact termInv_markMines B C0 M0 s.cells st h
  · intro st s h _ _
    exact termInv_markSafes B C0 M0 s.cells st h

theorem termInv_resolutionPass (B : Finset Cell) (C0 M0 : ℤ)
    (st : MinesweeperAI) (h : TermInv B C0 M0 st) :
    TermInv B C0 M0 st.resolutionPass.1 :=
  resolutionPass_pres _ (fun st k h => termInv_resolveStep B C0 M0 st k h) st h

theorem values_subset_universe (B : Finset Cell) (C0 M0 : ℤ)
    (st : MinesweeperAI) (hB : CellsWithin B st) (hC : CountsBound C0 M0 st) :
    st.knowledge.toFinset ⊆ sentenceUniverse B C0 M0 := by
  intro s hs
  rw [List.mem_toFinset] at hs
  unfold sentenceUniverse
  rw [Finset.mem_image]
  refine ⟨(s.cells, s.count), ?_, rfl⟩
  rw [Finset.mem_product, Finset.mem_powerset, Finset.mem_Icc]
  obtain ⟨h1, h2⟩ := hC s hs
  have hσ0 : (0:ℤ) ≤ max M0 1 := le_trans zero_le_one (le_max_right M0 1)
  have hpos : (0:ℤ) ≤ (max M0 1) * (s.cells.card : ℤ) :=
    mul_nonneg hσ0 (Int.natCast_nonneg _)
  exact ⟨hB s hs, by linarith, h1⟩

/-! Quantitative facts about the resolution pass. -/

theorem resolveStep_flag_false (st : MinesweeperAI) (k : ℕ) :
    (st.resolveStep k).2 = false → (st.resolveStep k).1 = st := by
  unfold MinesweeperAI.resolveStep
  dsimp only []
  split_ifs with hc1 hc2 hc3
  · dsimp only []
    intro h
    simp only [Bool.or_eq_false_iff, decide_eq_false_iff_not,
      Finset.not_nonempty_iff_eq_empty] at h
    obtain ⟨h1, h2⟩ := h
    rw [h1] at h2 ⊢
    rw [MinesweeperAI.markMines_empty] at h2 ⊢
    rw [h2, MinesweeperAI.markSafes_empty]
  · dsimp only []
    intro h
    simp only [decide_eq_false_iff_not, Finset.not_nonempty_iff_eq_empty] at h
    rw [h, MinesweeperAI.markMines_empty]
  · dsimp only []
    intro h
    simp only [Bool.false_or, decide_eq_false_iff_not,
      Finset.not_nonempty_iff_eq_empty] at h
    rw [h, MinesweeperAI.markSafes_empty]
  · intro _
    rfl

theorem unmarked_markMines_le (B : Finset Cell) (st : MinesweeperAI)
    (S : Finset Cell) : unmarkedCount B (st.markMines S) ≤ unmarkedCount B st := by
  apply Finset.card_le_card
  intro x hx
  rw [Finset.mem_sdiff] at hx ⊢
  rw [MinesweeperAI.markMines_mines, MinesweeperAI.markMines_safes] at hx
  refine ⟨hx.1, fun hm => hx.2 ?_⟩
  rw [Finset.mem_union] at hm ⊢
  rcases hm with hm | hm
  · exact Or.inl (Finset.mem_union.mpr (Or.inl hm))
  · exact Or.inr hm

theorem unmarked_markSafes_le (B : Finset Cell) (st : MinesweeperAI)
    (S : Finset Cell) : unmarkedCount B (st.markSafes S) ≤ unmarkedCount B st := by
  apply Finset.card_le_card
  intro x hx
  rw [Finset.mem_sdiff] at hx ⊢
  rw [MinesweeperAI.markSafes_mines, MinesweeperAI.markSafes_safes] at hx
  refine ⟨hx.1, fun hm => hx.2 ?_⟩
  rw [Finset.mem_union] at hm ⊢
  rcases hm with hm | hm
  · exact Or.inl hm
  · exact Or.inr (Finset.mem_union.mpr (Or.inl hm))

theorem unmarked_markMines_lt (B : Finset Cell) (st : MinesweeperAI)
    (S : Finset Cell) (hSB : S ⊆ B)
    (hdisj : ∀ c ∈ S, c ∉ st.mines ∧ c ∉ st.safes) (hne : S.Nonempty) :
    unmarkedCount B (st.markMines S) < unmarkedCount B st := by
  apply Finset.card_lt_card
  rw [Finset.ssubset_iff_of_subset]
  · obtain ⟨x, hx⟩ := hne
    refine ⟨x, ?_, ?_⟩
    · rw [Finset.mem_sdiff, Finset.mem_union]
      exact ⟨hSB hx, fun hm => hm.elim (hdisj x hx).1 (hdisj x hx).2⟩
    · rw [Finset.mem_sdiff]
      rintro ⟨_, hm⟩
      apply hm
      rw [MinesweeperAI.markMines_mines, MinesweeperAI.markMines_safes,
        Finset.mem_union]
      exact Or.inl (Finset.mem_union.mpr (Or.inr hx))
  · intro x hx
    rw [Finset.mem_sdiff] at hx ⊢
    rw [MinesweeperAI.markMines_mines, MinesweeperAI.markMines_safes] at hx
    refine ⟨hx.1, fun hm => hx.2 ?_⟩
    rw [Finset.mem_union] at hm ⊢
    rcases hm with hm | hm
    · exact Or.inl (Finset.mem_union.mpr (Or.inl hm))
    · exact Or.inr hm

theorem unmarked_markSafes_lt (B : Finset Cell) (st : MinesweeperAI)
    (S : Finset Cell) (hSB : S ⊆ B)
    (hdisj : ∀ c ∈ S, c ∉ st.mines ∧ c ∉ st.safes) (hne : S.Nonempty) :
    unmarkedCount B (st.markSafes S) < unmarkedCount B st := by
  apply Finset.card_lt_card
  rw [Finset.ssubset_iff_of_subset]
  · obtain ⟨x, hx⟩ := hne
    refine ⟨x, ?_, ?_⟩
    · rw [Finset.mem_sdiff, Finset.mem_union]
      exact ⟨hSB hx, fun hm => hm.elim (hdisj x hx).1 (hdisj x hx).2⟩
    · rw [Finset.mem_sdiff]
      rintro ⟨_, hm⟩
      apply hm
      rw [MinesweeperAI.markSafes_mines, MinesweeperAI.markSafes_safes,
        Finset.mem_union]
      exact Or.inr (Finset.mem_union.mpr (Or.inr hx))
  · intro x hx
    rw [Finset.mem_sdiff] at hx ⊢
    rw [MinesweeperAI.markSafes_mines, MinesweeperAI.markSafes_safes] at hx
    refine ⟨hx.1, fun hm => hx.2 ?_⟩
    rw [Finset.mem_union] at hm ⊢
    rcases hm with hm | hm
    · exact Or.inl hm
    · exact Or.inr (Finset.mem_union.mpr (Or.inl hm))

theorem resolveStep_unmarked (B : Finset Cell) (C0 M0 : ℤ) (st : MinesweeperAI)
    (k : ℕ) (hinv : TermInv B C0 M0 st) :
    unmarkedCount B (st.resolveStep k).1 ≤ unmarkedCount B st ∧
    ((st.resolveStep k).2 = true →
      unmarkedCount B (st.resolveStep k).1 < unmarkedCount B st) := by
  have hfacts : ∀ st2 : MinesweeperAI, TermInv B C0 M0 st2 →
      ∀ s : Sentence, s = st2.knowledge.getD k { cells := ∅, count := 0 } →
      s.cells.Nonempty →
      s.cells ⊆ B ∧ ∀ c ∈ s.cells, c ∉ st2.mines ∧ c ∉ st2.safes := by
    intro st2 hinv2 s hdef hne
    by_cases hk : k < st2.knowledge.length
    · have hm : s ∈ st2.knowledge := hdef ▸ getD_mem_of_lt st2.knowledge k _ hk
      exact ⟨hinv2.2.1 s hm, hinv2.1 s hm⟩
    · exfalso
      rw [List.getD_eq_default _ _ (le_of_not_lt hk)] at hdef
      rw [hdef] at hne
      exact absurd hne (by simp)
  unfold MinesweeperAI.resolveStep
  dsimp only []
  split_ifs with hc1 hc2 hc3
  · dsimp only []
    have hinv1 : TermInv B C0 M0
        (st.markMines (st.knowledge.getD k { cells := ∅, count := 0 }).cells) :=
      termInv_markMines B C0 M0 _ st hinv
    have hle1 : unmarkedCount B
        (st.markMines (st.knowledge.getD k { cells := ∅, count := 0 }).cells) ≤
        unmarkedCount B st := unmarked_markMines_le B st _
    have hle2 : unmarkedCount B
        ((st.markMines (st.knowledge.getD k { cells := ∅, count := 0 }).cells).markSafes
          ((st.markMines (st.knowledge.getD k { cells := ∅, count := 0 }).cells).knowledge.getD
            k { cells := ∅, count := 0 }).cells) ≤
        unmarkedCount B
          (st.markMines (st.knowledge.getD k { cells := ∅, count := 0 }).cells) :=
      unmarked_markSafes_le B _ _
    refine ⟨le_trans hle2 hle1, ?_⟩
    intro hflag
    have hflag2 : (st.knowledge.getD k { cells := ∅, count := 0 }).cells.Nonempty ∨
        ((st.markMines (st.knowledge.getD k { cells := ∅, count := 0 }).cells).knowledge.getD
          k { cells := ∅, count := 0 }).cells.Nonempty := by
      have h2 := hflag
      simp only [Bool.or_eq_true, decide_eq_true_eq] at h2
      exact h2
    rcases hflag2 with hne | hne
    · obtain ⟨hsub, hdisj⟩ := hfacts st hinv _ rfl hne
      exact lt_of_le_of_lt hle2 (unmarked_markMines_lt B st _ hsub hdisj hne)
    · obtain ⟨hsub, hdisj⟩ := hfacts _ hinv1 _ rfl hne
      exact lt_of_lt_of_le (unmarked_markSafes_lt B _ _ hsub hdisj hne) hle1
  · dsimp only []
    refine ⟨unmarked_markMines_le B st _, ?_⟩
    intro hflag
    have hne : (st.knowledge.getD k { cells := ∅, count := 0 }).cells.Nonempty := by
      simpa using hflag
    obtain ⟨hsub, hdisj⟩ := hfacts st hinv _ rfl hne
    exact unmarked_markMines_lt B st _ hsub hdisj hne
  · dsimp only []
    refine ⟨unmarked_markSafes_le B st _, ?_⟩
    intro hflag
    have hne : (st.knowledge.getD k { cells := ∅, count := 0 }).cells.Nonempty := by
      simpa using hflag
    obtain ⟨hsub, hdisj⟩ := hfacts st hinv _ rfl hne
    exact unmarked_markSafes_lt B st _ hsub hdisj hne
  · exact ⟨le_rfl, fun h => absurd h (by simp)⟩

theorem resolutionPass_unmarked (B : Finset Cell) (C0 M0 : ℤ)
    (st : MinesweeperAI) (hinv : TermInv B C0 M0 st) :
    unmarkedCount B st.resolutionPass.1 ≤ unmarkedCount B st ∧
    (st.resolutionPass.2 = true →
      unmarkedCount B st.resolutionPass.1 < unmarkedCount B st) := by
  unfold MinesweeperAI.resolutionPass
  have H : ∀ (l : List ℕ) (p : MinesweeperAI × Bool),
      TermInv B C0 M0 p.1 →
      unmarkedCount B p.1 ≤ unmarkedCount B st →
      (p.2 = true → unmarkedCount B p.1 < unmarkedCount B st) →
      unmarkedCount B
        ((l.foldl (fun p k => let q := p.1.resolveStep k; (q.1, p.2 || q.2)) p)).1 ≤
        unmarkedCount B st ∧
      ((l.foldl (fun p k => let q := p.1.resolveStep k; (q.1, p.2 || q.2)) p).2 = true →
        unmarkedCount B
          ((l.foldl (fun p k => let q := p.1.resolveStep k; (q.1, p.2 || q.2)) p)).1 <
          unmarkedCount B st) := by
    intro l
    induction l with
    | nil => intro p _ h2 h3; exact ⟨h2, h3⟩
    | cons a t ih =>
        intro p hp h2 h3
        refine ih _ (termInv_resolveStep B C0 M0 p.1 a hp) ?_ ?_
        · exact le_trans (resolveStep_unmarked B C0 M0 p.1 a hp).1 h2
        · intro hflag
          have hflag2 : p.2 = true ∨ (p.1.resolveStep a).2 = true := by
            have h4 : (p.2 || (p.1.resolveStep a).2) = true := hflag
            simpa using h4
          show unmarkedCount B (p.1.resolveStep a).1 < unmarkedCount B st
          rcases hflag2 with hp2 | hq
          · exact lt_of_le_of_lt (resolveStep_unmarked B C0 M0 p.1 a hp).1 (h3 hp2)
          · exact lt_of_lt_of_le ((resolveStep_unmarked B C0 M0 p.1 a hp).2 hq) h2
  exact H _ (st, false) hinv le_rfl (by simp)

theorem resolutionPass_flag_false (st : MinesweeperAI)
    (h : st.resolutionPass.2 = false) : st.resolutionPass.1 = st := by
  unfold MinesweeperAI.resolutionPass at h ⊢
  have H : ∀ (l : List ℕ) (p : MinesweeperAI × Bool),
      (l.foldl (fun p k => let q := p.1.resolveStep k; (q.1, p.2 || q.2)) p).2 = false →
      (l.foldl (fun p k => let q := p.1.resolveStep k; (q.1, p.2 || q.2)) p).1 = p.1 ∧
        p.2 = false := by
    intro l
    induction l with
    | nil => intro p hp; exact ⟨rfl, hp⟩
    | cons a t ih =>
        intro p hp
        have h2 := ih _ hp
        have h3 : p.2 = false ∧ (p.1.resolveStep a).2 = false := by
          have h4 : (p.2 || (p.1.resolveStep a).2) = false := h2.2
          simpa using h4
        refine ⟨?_, h3.1⟩
        rw [List.foldl_cons, h2.1]
        show (p.1.resolveStep a).1 = p.1
        exact resolveStep_flag_false _ _ h3.2
  exact (H _ (st, false) h).1

theorem unmarkedCount_congr (B : Finset Cell) (x y : MinesweeperAI)
    (hm : x.mines = y.mines) (hs : x.safes = y.safes) :
    unmarkedCount B x = unmarkedCount B y := by
  unfold unmarkedCount
  rw [hm, hs]

theorem subsetOuterLoop_frame (fuel : ℕ) (st : MinesweeperAI) (i : ℕ)
    (flag : Bool) (r : MinesweeperAI × Bool)
    (h : MinesweeperAI.subsetOuterLoop fuel st i flag = some r) :
    r.1.mines = st.mines ∧ r.1.safes = st.safes :=
  subsetOuterLoop_pres (fun x => x.mines = st.mines ∧ x.safes = st.safes)
    (fun st2 i2 j2 hp =>
      ⟨((subsetPairStep_frame st2 i2 j2).1).trans hp.1,
       ((subsetPairStep_frame st2 i2 j2).2.1).trans hp.2⟩)
    fuel st i flag r h ⟨rfl, rfl⟩

/-! Progress and fuel bounds for the subset-inference loops. -/

theorem toFinset_append_singleton (l : List Sentence) (ns : Sentence) :
    (l ++ [ns]).toFinset = insert ns l.toFinset := by
  ext x
  simp only [List.mem_toFinset, List.mem_append, List.mem_singleton,
    Finset.mem_insert]
  tauto

theorem subsetInnerLoop_progress :
    ∀ (fuel : ℕ) (st : MinesweeperAI) (i j : ℕ) (flag : Bool)
      (r : MinesweeperAI × Bool),
      MinesweeperAI.subsetInnerLoop fuel st i j flag = some r →
      (r.1 = st ∧ r.2 = flag) ∨
      (r.2 = true ∧ st.knowledge.toFinset ⊆ r.1.knowledge.toFinset ∧
        st.knowledge.toFinset.card < r.1.knowledge.toFinset.card) := by
  intro fuel
  induction fuel with
  | zero =>
      intro st i j flag r hr
      unfold MinesweeperAI.subsetInnerLoop at hr
      split_ifs at hr
      injection hr with hr
      rw [← hr]
      exact Or.inl ⟨rfl, rfl⟩
  | succ n ih =>
      intro st i j flag r hr
      unfold MinesweeperAI.subsetInnerLoop at hr
      split_ifs at hr with hj
      · dsimp only [] at hr
        rcases subsetPairStep_cases st i j with hc | ⟨hflag, ns, hns, heq, _⟩
        · rw [hc] at hr
          dsimp only [] at hr
          rw [Bool.or_false] at hr
          exact ih _ _ _ _ _ hr
        · rw [heq, hflag, Bool.or_true] at hr
          have htf : ({ st with knowledge := st.knowledge ++ [ns] } :
              MinesweeperAI).knowledge.toFinset = insert ns st.knowledge.toFinset :=
            toFinset_append_singleton st.knowledge ns
          have hnsf : ns ∉ st.knowledge.toFinset := fun hmem =>
            hns (List.mem_toFinset.mp hmem)
          have hgrow1 : st.knowledge.toFinset ⊆
              ({ st with knowledge := st.knowledge ++ [ns] } :
                MinesweeperAI).knowledge.toFinset := by
            rw [htf]
            exact Finset.subset_insert ns _
          have hgrow2 : st.knowledge.toFinset.card <
              ({ st with knowledge := st.knowledge ++ [ns] } :
                MinesweeperAI).knowledge.toFinset.card := by
            rw [htf, Finset.card_insert_of_not_mem hnsf]
            omega
          rcases ih _ _ _ _ _ hr with ⟨h1, h2⟩ | ⟨h1, h2, h3⟩
          · rw [h1]
            exact Or.inr ⟨h2, hgrow1, hgrow2⟩
          · exact Or.inr ⟨h1, le_trans hgrow1 h2, lt_trans hgrow2 h3⟩
      · injection hr with hr
        rw [← hr]
        exact Or.inl ⟨rfl, rfl⟩

theorem subsetOuterLoop_progress :
    ∀ (fuel : ℕ) (st : MinesweeperAI) (i : ℕ) (flag : Bool)
      (r : MinesweeperAI × Bool),
      MinesweeperAI.subsetOuterLoop fuel st i flag = some r →
      (r.1 = st ∧ r.2 = flag) ∨
      (r.2 = true ∧ st.knowledge.toFinset ⊆ r.1.knowledge.toFinset ∧
        st.knowledge.toFinset.card < r.1.knowledge.toFinset.card) := by
  intro fuel
  induction fuel with
  | zero =>
      intro st i flag r hr
      unfold MinesweeperAI.subsetOuterLoop at hr
      split_ifs at hr
      injection hr with hr
      rw [← hr]
      exact Or.inl ⟨rfl, rfl⟩
  | succ n ih =>
      intro st i flag r hr
      unfold MinesweeperAI.subsetOuterLoop at hr
      split_ifs at hr with hi
      · cases hin : MinesweeperAI.subsetInnerLoop n st i 0 false with
        | none => rw [hin] at hr; exact absurd hr (by simp)
        | some q =>
            obtain ⟨st1, flag1⟩ := q
            rw [hin] at hr
            dsimp only [] at hr
            rcases subsetInnerLoop_progress n st i 0 false _ hin with
              ⟨h1, h2⟩ | ⟨h1, h2, h3⟩
            · dsimp only [] at h1 h2
              rw [h1, h2, Bool.or_false] at hr
              exact ih _ _ _ _ hr
            · dsimp only [] at h1 h2 h3
              rw [h1, Bool.or_true] at hr
              rcases ih _ _ _ _ hr with ⟨h4, h5⟩ | ⟨h4, h5, h6⟩
              · rw [h4]
                exact Or.inr ⟨h5, h2, h3⟩
              · exact Or.inr ⟨h4, le_trans h2 h5, lt_trans h3 h6⟩
      · injection hr with hr
        rw [← hr]
        exact Or.inl ⟨rfl, rfl⟩

theorem append_novelty (B : Finset Cell) (C0 M0 : ℤ) (st : MinesweeperAI)
    (ns : Sentence) (hns : ns ∉ st.knowledge)
    (hinv1 : TermInv B C0 M0 { st with knowledge := st.knowledge ++ [ns] }) :
    st.knowledge.toFinset.card + 1 ≤ (sentenceUniverse B C0 M0).card ∧
    ({ st with knowledge := st.knowledge ++ [ns] } :
      MinesweeperAI).knowledge.toFinset.card = st.knowledge.toFinset.card + 1 := by
  have htf : ({ st with knowledge := st.knowledge ++ [ns] } :
      MinesweeperAI).knowledge.toFinset = insert ns st.knowledge.toFinset :=
    toFinset_append_singleton st.knowledge ns
  have hnsf : ns ∉ st.knowledge.toFinset := fun hmem => hns (List.mem_toFinset.mp hmem)
  have hcard : ({ st with knowledge := st.knowledge ++ [ns] } :
      MinesweeperAI).knowledge.toFinset.card = st.knowledge.toFinset.card + 1 := by
    rw [htf, Finset.card_insert_of_not_mem hnsf]
  refine ⟨?_, hcard⟩
  have hsub : ({ st with knowledge := st.knowledge ++ [ns] } :
      MinesweeperAI).knowledge.toFinset ⊆ sentenceUniverse B C0 M0 :=
    values_subset_universe B C0 M0 _ hinv1.2.1 hinv1.2.2
  have := Finset.card_le_card hsub
  omega

theorem subsetInnerLoop_sum (B : Finset Cell) (C0 M0 : ℤ) :
    ∀ (fuel : ℕ) (st : MinesweeperAI) (i j : ℕ) (flag : Bool)
      (r : MinesweeperAI × Bool),
      MinesweeperAI.subsetInnerLoop fuel st i j flag = some r →
      TermInv B C0 M0 st →
      r.1.knowledge.length + noveltyCount B C0 M0 r.1 ≤
        st.knowledge.length + noveltyCount B C0 M0 st := by
  intro fuel
  induction fuel with
  | zero =>
      intro st i j flag r hr _
      unfold MinesweeperAI.subsetInnerLoop at hr
      split_ifs at hr
      injection hr with hr
      rw [← hr]
  | succ n ih =>
      intro st i j flag r hr hinv
      unfold MinesweeperAI.subsetInnerLoop at hr
      split_ifs at hr with hj
      · dsimp only [] at hr
        rcases subsetPairStep_cases st i j with hc | ⟨hflag, ns, hns, heq, _⟩
        · rw [hc] at hr
          dsimp only [] at hr
          exact ih _ _ _ _ _ hr hinv
        · rw [heq, hflag] at hr
          have hinv1 : TermInv B C0 M0 { st with knowledge := st.knowledge ++ [ns] } := by
            have := termInv_pairStep B C0 M0 st i j hinv
            rw [heq] at this
            exact this
          have hle := ih _ _ _ _ _ hr hinv1
          obtain ⟨hc1, hc2⟩ := append_novelty B C0 M0 st ns hns hinv1
          have hlen : ({ st with knowledge := st.knowledge ++ [ns] } :
              MinesweeperAI).knowledge.length = st.knowledge.length + 1 := by
            simp
          have hval1 : ({ st with knowledge := st.knowledge ++ [ns] } :
              MinesweeperAI).knowledge.toFinset ⊆ sentenceUniverse B C0 M0 :=
            values_subset_universe B C0 M0 _ hinv1.2.1 hinv1.2.2
          have hval0 : st.knowledge.toFinset ⊆ sentenceUniverse B C0 M0 :=
            values_subset_universe B C0 M0 _ hinv.2.1 hinv.2.2
          have hcardle := Finset.card_le_card hval0
          unfold noveltyCount at hle ⊢
          omega
      · injection hr with hr
        rw [← hr]

theorem subsetOuterLoop_sum (B : Finset Cell) (C0 M0 : ℤ) :
    ∀ (fuel : ℕ) (st : MinesweeperAI) (i : ℕ) (flag : Bool)
      (r : MinesweeperAI × Bool),
      MinesweeperAI.subsetOuterLoop fuel st i flag = some r →
      TermInv B C0 M0 st →
      r.1.knowledge.length + noveltyCount B C0 M0 r.1 ≤
        st.knowledge.length + noveltyCount B C0 M0 st := by
  intro fuel
  induction fuel with
  | zero =>
      intro st i flag r hr _
      unfold MinesweeperAI.subsetOuterLoop at hr
      split_ifs at hr
      injection hr with hr
      rw [← hr]
  | succ n ih =>
      intro st i flag r hr hinv
      unfold MinesweeperAI.subsetOuterLoop at hr
      split_ifs at hr with hi
      · cases hin : MinesweeperAI.subsetInnerLoop n st i 0 false with
        | none => rw [hin] at hr; exact absurd hr (by simp)
        | some q =>
            obtain ⟨st1, flag1⟩ := q
            rw [hin] at hr
            dsimp only [] at hr
            have hinv1 : TermInv B C0 M0 st1 :=
              subsetInnerLoop_pres _ (fun st2 i2 j2 h2 =>
                termInv_pairStep B C0 M0 st2 i2 j2 h2) n st i 0 false _ hin hinv
            have h1 := subsetInnerLoop_sum B C0 M0 n st i 0 false _ hin hinv
            have h2 := ih _ _ _ _ hr hinv1
            exact le_trans h2 h1
      · injection hr with hr
        rw [← hr]

theorem subsetInnerLoop_fuel (B : Finset Cell) (C0 M0 : ℤ) :
    ∀ (fuel : ℕ) (st : MinesweeperAI) (i j : ℕ) (flag : Bool),
      TermInv B C0 M0 st →
      noveltyCount B C0 M0 st + (st.knowledge.length - j) ≤ fuel →
      ∃ r, MinesweeperAI.subsetInnerLoop fuel st i j flag = some r := by
  intro fuel
  induction fuel with
  | zero =>
      intro st i j flag _ hm
      have hj : ¬ j < st.knowledge.length := by omega
      refine ⟨(st, flag), ?_⟩
      unfold MinesweeperAI.subsetInnerLoop
      rw [if_neg hj]
  | succ n ih =>
      intro st i j flag hinv hm
      by_cases hj : j < st.knowledge.length
      · rcases subsetPairStep_cases st i j with hc | ⟨hflag, ns, hns, heq, _⟩
        · obtain ⟨r, hr⟩ := ih st i (j + 1) (flag || (st.subsetPairStep i j).2)
            hinv (by omega)
          refine ⟨r, ?_⟩
          unfold MinesweeperAI.subsetInnerLoop
          rw [if_pos hj]
          dsimp only []
          rw [hc] at hr ⊢
          exact hr
        · have hinv1 : TermInv B C0 M0 { st with knowledge := st.knowledge ++ [ns] } := by
            have := termInv_pairStep B C0 M0 st i j hinv
            rw [heq] at this
            exact this
          obtain ⟨hc1, hc2⟩ := append_novelty B C0 M0 st ns hns hinv1
          have hval0 : st.knowledge.toFinset ⊆ sentenceUniverse B C0 M0 :=
            values_subset_universe B C0 M0 _ hinv.2.1 hinv.2.2
          have hcardle := Finset.card_le_card hval0
          have hlen : ({ st with knowledge := st.knowledge ++ [ns] } :
              MinesweeperAI).knowledge.length = st.knowledge.length + 1 := by
            simp
          have hmeas : noveltyCount B C0 M0 { st with knowledge := st.knowledge ++ [ns] } +
              (({ st with knowledge := st.knowledge ++ [ns] } :
                MinesweeperAI).knowledge.length - (j + 1)) ≤ n := by
            unfold noveltyCount at hm ⊢
            omega
          obtain ⟨r, hr⟩ := ih { st with knowledge := st.knowledge ++ [ns] } i (j + 1)
            (flag || (st.subsetPairStep i j).2) hinv1 hmeas
          refine ⟨r, ?_⟩
          unfold MinesweeperAI.subsetInnerLoop
          rw [if_pos hj]
          dsimp only []
          rw [heq]
          exact hr
      · refine ⟨(st, flag), ?_⟩
        unfold MinesweeperAI.subsetInnerLoop
        rw [if_neg hj]

theorem subsetOuterLoop_fuel (B : Finset Cell) (C0 M0 : ℤ) :
    ∀ (fuel : ℕ) (st : MinesweeperAI) (i : ℕ) (flag : Bool),
      TermInv B C0 M0 st →
      2 * (noveltyCount B C0 M0 st + st.knowledge.length) < fuel + i →
      ∃ r, MinesweeperAI.subsetOuterLoop fuel st i flag = some r := by
  intro fuel
  induction fuel with
  | zero =>
      intro st i flag _ hm
      have hi : ¬ i < st.knowledge.length := by omega
      refine ⟨(st, flag), ?_⟩
      unfold MinesweeperAI.subsetOuterLoop
      rw [if_neg hi]
  | succ n ih =>
      intro st i flag hinv hm
      by_cases hi : i < st.knowledge.length
      · have hmeasin : noveltyCount B C0 M0 st + (st.knowledge.length - 0) ≤ n := by
          omega
        obtain ⟨q, hin⟩ := subsetInnerLoop_fuel B C0 M0 n st i 0 false hinv hmeasin
        obtain ⟨st1, flag1⟩ := q
        have hinv1 : TermInv B C0 M0 st1 :=
          subsetInnerLoop_pres _ (fun st2 i2 j2 h2 =>
            termInv_pairStep B C0 M0 st2 i2 j2 h2) n st i 0 false _ hin hinv
        have hsum : st1.knowledge.length + noveltyCount B C0 M0 st1 ≤
            st.knowledge.length + noveltyCount B C0 M0 st :=
          subsetInnerLoop_sum B C0 M0 n st i 0 false _ hin hinv
        have hmeas1 : 2 * (noveltyCount B C0 M0 st1 + st1.knowledge.length) <
            n + (i + 1) := by omega
        obtain ⟨r, hout⟩ := ih st1 (i + 1) (flag || flag1) hinv1 hmeas1
        refine ⟨r, ?_⟩
        unfold MinesweeperAI.subsetOuterLoop
        rw [if_pos hi, hin]
        exact hout
      · refine ⟨(st, flag), ?_⟩
        unfold MinesweeperAI.subsetOuterLoop
        rw [if_neg hi]

/-! The no-known-cells invariant holds in every reachable state. -/

theorem noKnownCells_markMines (S : Finset Cell) (st : MinesweeperAI)
    (h : NoKnownCells st) : NoKnownCells (st.markMines S) := by
  intro s' hs' c hcmem
  rw [MinesweeperAI.markMines_knowledge] at hs'
  obtain ⟨s, hsmem, rfl⟩ := List.mem_map.mp hs'
  have hcc := Finset.mem_sdiff.mp hcmem
  have h2 := h s hsmem c hcc.1
  rw [MinesweeperAI.markMines_mines, MinesweeperAI.markMines_safes]
  refine ⟨?_, h2.2⟩
  rw [Finset.mem_union]
  rintro (hm | hS)
  · exact h2.1 hm
  · exact hcc.2 hS

theorem noKnownCells_markSafes (S : Finset Cell) (st : MinesweeperAI)
    (h : NoKnownCells st) : NoKnownCells (st.markSafes S) := by
  intro s' hs' c hcmem
  rw [MinesweeperAI.markSafes_knowledge] at hs'
  obtain ⟨s, hsmem, rfl⟩ := List.mem_map.mp hs'
  have hcc := Finset.mem_sdiff.mp hcmem
  have h2 := h s hsmem c hcc.1
  rw [MinesweeperAI.markSafes_mines, MinesweeperAI.markSafes_safes]
  refine ⟨h2.1, ?_⟩
  rw [Finset.mem_union]
  rintro (hs2 | hS)
  · exact h2.2 hs2
  · exact hcc.2 hS

theorem noKnownCells_core (st : MinesweeperAI) (h : NoKnownCells st)
    (cell : Cell) (count : ℤ) : NoKnownCells (st.addObservationCore cell count) := by
  obtain ⟨hmo, hsa, hmi, _, _, hkn, _⟩ := addObservationCore_fields st cell count
  intro s' hs' c hc
  rw [hmi, hsa]
  rw [hkn] at hs'
  rcases List.mem_append.mp hs' with hs' | hs'
  · obtain ⟨s, hsmem, rfl⟩ := List.mem_map.mp hs'
    rw [Sentence.mark_safe_eq_erase] at hc
    have hc2 : c ∈ s.cells.erase cell := hc
    have hcel := Finset.mem_erase.mp hc2
    have h2 := h s hsmem c hcel.2
    refine ⟨h2.1, ?_⟩
    rw [Finset.mem_insert]
    rintro (rfl | hcs)
    · exact hcel.1 rfl
    · exact h2.2 hcs
  · by_cases hemp : ((inBoundsNeighbors st.height st.width cell).filter
        fun n => n ∉ st.mines ∧ n ∉ st.safes) = ∅
    · rw [if_pos hemp] at hs'
      exact absurd hs' (by simp)
    · rw [if_neg hemp] at hs'
      rw [List.mem_singleton] at hs'
      subst hs'
      have hc2 := Finset.mem_filter.mp hc
      have hne : c ≠ cell :=
        ((mem_inBoundsNeighbors st.height st.width cell c).mp hc2.1).1
      refine ⟨hc2.2.1, ?_⟩
      rw [Finset.mem_insert]
      rintro (rfl | hcs)
      · exact hne rfl
      · exact hc2.2.2 hcs

theorem noKnownCells_of_reaches (height width : ℤ) (st : MinesweeperAI)
    (h : ReachesIB height width st) : NoKnownCells st := by
  induction h with
  | init => intro s hs; exact absurd hs (by simp [MinesweeperAI.init])
  | step st st' cell count fuel _ h1 h2 h3 h4 hadd ih =>
      have hres : ∀ st, NoKnownCells st → NoKnownCells st.resolutionPass.1 := by
        intro st hinv
        refine resolutionPass_pres _ (fun st k h => resolveStep_pres _ ?_ ?_ st k h) st hinv
        · intro st s h _ _
          exact noKnownCells_markMines s.cells st h
        · intro st s h _ _
          exact noKnownCells_markSafes s.cells st h
      have hstep : ∀ st i j, NoKnownCells st → NoKnownCells (st.subsetPairStep i j).1 := by
        intro st i j hinv
        refine subsetPairStep_pres _ ?_ st i j hinv
        intro st A B hinv hA hB hsub _ _ _
        intro s' hs' c hc
        rcases (by simpa using List.mem_append.mp hs' :
            s' ∈ st.knowledge ∨ s' = _) with hs' | rfl
        · exact hinv s' hs' c hc
        · exact hinv B hB c (Finset.mem_sdiff.mp hc).1
      exact inferLoop_pres _ hres hstep fuel _ st' hadd
        (noKnownCells_core st ih cell count)

/-! Existence of the termination bounds for an arbitrary state. -/

theorem mem_unionCells (l : List Sentence) (s : Sentence) (h : s ∈ l) :
    s.cells ⊆ unionCells l := by
  induction l with
  | nil => exact absurd h (by simp)
  | cons a t ih =>
      rcases List.mem_cons.mp h with rfl | h
      · intro x hx
        unfold unionCells
        rw [List.foldr_cons, Finset.mem_union]
        exact Or.inl hx
      · intro x hx
        unfold unionCells
        rw [List.foldr_cons, Finset.mem_union]
        exact Or.inr (ih h hx)

theorem exists_count_upper (l : List Sentence) :
    ∃ M0 : ℤ, ∀ s ∈ l, s.count ≤ M0 := by
  induction l with
  | nil => exact ⟨0, by simp⟩
  | cons a t ih =>
      obtain ⟨M, hM⟩ := ih
      refine ⟨max a.count M, ?_⟩
      intro s hs
      rcases List.mem_cons.mp hs with rfl | hs
      · exact le_max_left _ _
      · exact le_trans (hM s hs) (le_max_right _ _)

theorem exists_count_lower (σ : ℤ) (l : List Sentence) :
    ∃ C0 : ℤ, ∀ s ∈ l, C0 + σ * (s.cells.card : ℤ) ≤ s.count := by
  induction l with
  | nil => exact ⟨0, by simp⟩
  | cons a t ih =>
      obtain ⟨C, hC⟩ := ih
      refine ⟨min (a.count - σ * (a.cells.card : ℤ)) C, ?_⟩
      intro s hs
      rcases List.mem_cons.mp hs with rfl | hs
      · have := min_le_left (s.count - σ * (s.cells.card : ℤ)) C
        linarith
      · have h1 := min_le_right (a.count - σ * (a.cells.card : ℤ)) C
        have h2 := hC s hs
        linarith

theorem exists_termInv (st : MinesweeperAI) (hnk : NoKnownCells st) :
    ∃ (B : Finset Cell) (C0 M0 : ℤ), TermInv B C0 M0 st := by
  obtain ⟨M0, hM⟩ := exists_count_upper st.knowledge
  obtain ⟨C0, hC⟩ := exists_count_lower (max M0 1) st.knowledge
  exact ⟨unionCells st.knowledge, C0, M0, hnk,
    fun s hs => mem_unionCells _ s hs, fun s hs => ⟨hM s hs, hC s hs⟩⟩

/-! Termination of the inference loop. -/

theorem inferLoop_total (B : Finset Cell) (C0 M0 : ℤ) :
    ∀ (μ : ℕ) (st : MinesweeperAI), TermInv B C0 M0 st →
      unmarkedCount B st * ((sentenceUniverse B C0 M0).card + 1) +
        noveltyCount B C0 M0 st = μ →
      ∃ (fuel : ℕ) (st2 : MinesweeperAI),
        MinesweeperAI.inferLoop fuel st = some st2 := by
  intro μ
  induction μ using Nat.strong_induction_on with
  | _ μ ih =>
    intro st hinv hμ
    have hinv1 : TermInv B C0 M0 st.resolutionPass.1 :=
      termInv_resolutionPass B C0 M0 st hinv
    obtain ⟨q, hout⟩ := subsetOuterLoop_fuel B C0 M0
      (2 * (noveltyCount B C0 M0 st.resolutionPass.1 +
        st.resolutionPass.1.knowledge.length) + 1)
      st.resolutionPass.1 0 false hinv1 (by omega)
    obtain ⟨st2, flag2⟩ := q
    have hinv2 : TermInv B C0 M0 st2 :=
      subsetOuterLoop_pres _ (fun st3 i3 j3 h3 =>
        termInv_pairStep B C0 M0 st3 i3 j3 h3) _ _ 0 false _ hout hinv1
    by_cases hflag : (st.resolutionPass.2 || flag2) = true
    · have hframe := subsetOuterLoop_frame _ _ 0 false _ hout
      have hu2eq : unmarkedCount B st2 = unmarkedCount B st.resolutionPass.1 :=
        unmarkedCount_congr B st2 st.resolutionPass.1 hframe.1 hframe.2
      have hval2 : st2.knowledge.toFinset ⊆ sentenceUniverse B C0 M0 :=
        values_subset_universe B C0 M0 _ hinv2.2.1 hinv2.2.2
      have hnov2le : noveltyCount B C0 M0 st2 ≤ (sentenceUniverse B C0 M0).card := by
        unfold noveltyCount
        exact Nat.sub_le _ _
      have hmeaslt : unmarkedCount B st2 * ((sentenceUniverse B C0 M0).card + 1) +
          noveltyCount B C0 M0 st2 < μ := by
        by_cases ha : st.resolutionPass.2 = true
        · have hu1lt : unmarkedCount B st.resolutionPass.1 < unmarkedCount B st :=
            (resolutionPass_unmarked B C0 M0 st hinv).2 ha
          have hle1 : unmarkedCount B st2 + 1 ≤ unmarkedCount B st := by omega
          calc unmarkedCount B st2 * ((sentenceUniverse B C0 M0).card + 1) +
              noveltyCount B C0 M0 st2
              ≤ unmarkedCount B st2 * ((sentenceUniverse B C0 M0).card + 1) +
                (sentenceUniverse B C0 M0).card :=
                Nat.add_le_add_left hnov2le _
            _ < (unmarkedCount B st2 + 1) * ((sentenceUniverse B C0 M0).card + 1) := by
                rw [Nat.add_mul, Nat.one_mul]
                omega
            _ ≤ unmarkedCount B st * ((sentenceUniverse B C0 M0).card + 1) :=
                Nat.mul_le_mul_right _ hle1
            _ ≤ μ := by rw [← hμ]; exact Nat.le_add_right _ _
        · have ha2 : st.resolutionPass.2 = false := by
            revert ha; cases st.resolutionPass.2 <;> simp
          have hid : st.resolutionPass.1 = st := resolutionPass_flag_false st ha2
          have hflag2 : flag2 = true := by
            rw [ha2] at hflag
            simpa using hflag
          rcases subsetOuterLoop_progress _ _ 0 false _ hout with ⟨_, hq2⟩ | ⟨_, _, hglt⟩
          · have hq3 : flag2 = false := hq2
            rw [hq3] at hflag2
            exact absurd hflag2 (by simp)
          · have hval0 : st.knowledge.toFinset ⊆ sentenceUniverse B C0 M0 :=
              values_subset_universe B C0 M0 _ hinv.2.1 hinv.2.2
            have hc0 := Finset.card_le_card hval0
            have hcard2 : st2.knowledge.toFinset.card ≤
                (sentenceUniverse B C0 M0).card := Finset.card_le_card hval2
            have hgrow : st.resolutionPass.1.knowledge.toFinset.card <
                st2.knowledge.toFinset.card := hglt
            rw [hid] at hgrow
            have hnovlt : noveltyCount B C0 M0 st2 < noveltyCount B C0 M0 st := by
              unfold noveltyCount
              omega
            have hueq : unmarkedCount B st2 = unmarkedCount B st := by
              rw [hu2eq, hid]
            rw [← hμ, hueq]
            exact Nat.add_lt_add_left hnovlt _
      obtain ⟨f2, st3, hloop⟩ := ih _ hmeaslt st2 hinv2 rfl
      refine ⟨max (2 * (noveltyCount B C0 M0 st.resolutionPass.1 +
        st.resolutionPass.1.knowledge.length) + 1) f2 + 1, st3, ?_⟩
      unfold MinesweeperAI.inferLoop
      dsimp only []
      rw [subsetOuterLoop_mono _ _ (le_max_left _ _) _ _ _ _ hout]
      dsimp only []
      rw [if_pos hflag]
      exact inferLoop_mono _ _ (le_max_right _ _) _ _ hloop
    · refine ⟨2 * (noveltyCount B C0 M0 st.resolutionPass.1 +
        st.resolutionPass.1.knowledge.length) + 1 + 1, st2, ?_⟩
      unfold MinesweeperAI.inferLoop
      dsimp only []
      rw [hout]
      dsimp only []
      rw [if_neg hflag]

theorem inferLoop_terminates (st : MinesweeperAI) (hnk : NoKnownCells st) :
    ∃ (fuel : ℕ) (st2 : MinesweeperAI),
      MinesweeperAI.inferLoop fuel st = some st2 := by
  obtain ⟨B, C0, M0, hinv⟩ := exists_termInv st hnk
  exact inferLoop_total B C0 M0 _ st hinv rfl

/-- C4: from every state reachable from a fresh instance by in-bounds
add_knowledge calls, a further in-bounds call's inference loop (the
while-inferred loop combining the resolution pass and the subset-inference
pass) terminates: some finite fuel makes add_knowledge return.  The proof
combines two finite measures: each resolution mark removes a cell of the
finite board from the unmarked cells, and each subset-inference append adds a
structurally new sentence from the finite universe of sentences over the
current cells with bounded counts. -/
theorem inference_loop_terminates (height width : ℤ) (st : MinesweeperAI)
    (hreach : ReachesIB height width st) (cell : Cell) (count : ℤ)
    (hc1 : 0 ≤ cell.1) (hc2 : cell.1 < height) (hc3 : 0 ≤ cell.2)
    (hc4 : cell.2 < width) :
    ∃ (fuel : ℕ) (st2 : MinesweeperAI),
      MinesweeperAI.add_knowledge fuel st cell count = some st2 := by
  have hnk : NoKnownCells st := noKnownCells_of_reaches height width st hreach
  have hnk2 : NoKnownCells (st.addObservationCore cell count) :=
    noKnownCells_core st hnk cell count
  obtain ⟨fuel, st2, h⟩ := inferLoop_terminates _ hnk2
  exact ⟨fuel, st2, h⟩

/-- C4 witness: on the fresh 2 by 2 instance an observation at the in-bounds
cell (0,0) with count 0 terminates for some fuel. -/
theorem inference_loop_terminates_witness :
    ∃ (fuel : ℕ) (st2 : MinesweeperAI),
      MinesweeperAI.add_knowledge fuel (MinesweeperAI.init 2 2)
        ((0:ℤ),(0:ℤ)) 0 = some st2 :=
  inference_loop_terminates 2 2 (MinesweeperAI.init 2 2) ReachesIB.init
    ((0:ℤ),(0:ℤ)) 0 (by decide) (by decide) (by decide) (by decide)
